import Mathlib

/-!
Verification development for the Arcane Forum Archiver
(`src/ArcaneForumArch.py`).  The Python source is shallowly embedded:
pure string manipulation is translated directly, the network is an
explicit `fetch : String → Option String` oracle, the filesystem is an
association list from paths to contents, and HTML parsing (BeautifulSoup)
is abstracted as oracle functions producing the same intermediate data
the source derives from a parsed document.  Cooperative cancellation is
modelled by a time-indexed flag `stop : Nat → Bool` consulted at the same
checkpoints as the source consults its `threading.Event`.
-/

namespace ArcaneArchiver

/-! ### Decimal rendering of naturals (Python `str(n)` for a nonnegative int) -/

/-- The decimal digit character for `n < 10` (clamped at `'9'` otherwise). -/
def digitChar10 : Nat → Char
  | 0 => '0' | 1 => '1' | 2 => '2' | 3 => '3' | 4 => '4'
  | 5 => '5' | 6 => '6' | 7 => '7' | 8 => '8' | _ => '9'

/-- Numeric value of a decimal digit character (`0` for anything else). -/
def decDigit : Char → Nat
  | '0' => 0 | '1' => 1 | '2' => 2 | '3' => 3 | '4' => 4
  | '5' => 5 | '6' => 6 | '7' => 7 | '8' => 8 | '9' => 9 | _ => 0

/-- Core of decimal rendering; any `fuel > n` is enough fuel. -/
def natToDecCore : Nat → Nat → List Char
  | 0, _ => []
  | fuel + 1, n =>
    if n < 10 then [digitChar10 n]
    else natToDecCore fuel (n / 10) ++ [digitChar10 (n % 10)]

/-- Decimal digit list of a natural number, most significant first. -/
def natToDecList (n : Nat) : List Char := natToDecCore (n + 1) n

/-- Python `str(n)` for a natural number. -/
def natToDec (n : Nat) : String := ⟨natToDecList n⟩

/-- Evaluate a digit list back to a number. -/
def decVal (l : List Char) : Nat := l.foldl (fun a c => a * 10 + decDigit c) 0

theorem decDigit_digitChar10 {n : Nat} (h : n < 10) : decDigit (digitChar10 n) = n := by
  interval_cases n <;> rfl

theorem decVal_append_digit (l : List Char) (c : Char) :
    decVal (l ++ [c]) = decVal l * 10 + decDigit c := by
  simp [decVal, List.foldl_append]

theorem decVal_natToDecCore {fuel n : Nat} (h : n < fuel) :
    decVal (natToDecCore fuel n) = n := by
  induction fuel generalizing n with
  | zero => omega
  | succ fuel ih =>
    rw [natToDecCore]
    by_cases h10 : n < 10
    · simp only [h10, if_true]
      simp [decVal, decDigit_digitChar10 h10]
    · simp only [h10, if_false]
      have hdiv : n / 10 < fuel := by
        have hlt : n / 10 < n := Nat.div_lt_self (by omega) (by omega)
        omega
      rw [decVal_append_digit, ih hdiv, decDigit_digitChar10 (Nat.mod_lt _ (by omega))]
      omega

theorem decVal_natToDecList (n : Nat) : decVal (natToDecList n) = n :=
  decVal_natToDecCore (Nat.lt_succ_self n)

theorem natToDecList_injective : Function.Injective natToDecList := by
  intro a b h
  have := decVal_natToDecList a
  rw [h, decVal_natToDecList] at this
  omega

theorem natToDec_injective : Function.Injective natToDec := by
  intro a b h
  exact natToDecList_injective (congrArg String.data h)

/-! ### `MirrorCrawler._normalize`

Python source:
```
def _normalize(self, url):
    url, _ = urldefrag(url)
    return url.rstrip("/")
```
`urldefrag` keeps the part of the string before the first `'#'`;
`rstrip("/")` removes every trailing `'/'`. -/

/-- Python `str.rstrip("/")` on a character list. -/
def rstripSlashList (l : List Char) : List Char :=
  (l.reverse.dropWhile (fun c => c = '/')).reverse

/-- The first component of `urldefrag url`: everything before the first `'#'`. -/
def dropFragList (l : List Char) : List Char :=
  l.takeWhile (fun c => c ≠ '#')

namespace MirrorCrawler

/-- `MirrorCrawler._normalize`: strip the fragment, then strip trailing
slashes. -/
def normalize (url : String) : String :=
  ⟨rstripSlashList (dropFragList url.data)⟩

end MirrorCrawler

theorem dropWhile_dropWhile {α : Type} (p : α → Bool) (l : List α) :
    (l.dropWhile p).dropWhile p = l.dropWhile p := by
  induction l with
  | nil => rfl
  | cons a l ih =>
    by_cases h : p a
    · simp [List.dropWhile_cons, h, ih]
    · simp [List.dropWhile_cons, h]

theorem rstripSlashList_idem (l : List Char) :
    rstripSlashList (rstripSlashList l) = rstripSlashList l := by
  simp [rstripSlashList, dropWhile_dropWhile]

theorem mem_dropFragList {l : List Char} {c : Char} (h : c ∈ dropFragList l) :
    c ≠ '#' := by
  have := List.mem_takeWhile_imp h
  simpa using this

theorem dropFragList_eq_self {l : List Char} (h : ∀ c ∈ l, c ≠ '#') :
    dropFragList l = l := by
  induction l with
  | nil => rfl
  | cons a l ih =>
    have ha : a ≠ '#' := h a (by simp)
    have ih2 := ih fun c hc => h c (by simp [hc])
    simp only [dropFragList, List.takeWhile_cons] at ih2 ⊢
    simp [ha, ih2]
    exact fun c hc => h c (List.mem_cons_of_mem _ hc)

theorem mem_rstripSlashList {l : List Char} {c : Char} (h : c ∈ rstripSlashList l) :
    c ∈ l := by
  simp only [rstripSlashList, List.mem_reverse] at h
  have := List.dropWhile_sublist (l := l.reverse) (p := fun c => c = '/')
  have h2 := this.mem h
  simpa using h2

/-! ### Data model: content units (thread links) -/

/-- One discovered content unit: the dict `{'id', 'url', 'title'}` built by
`extract_thread_links`. -/
structure ContentUnit where
  id : String
  url : String
  title : String
deriving DecidableEq

/-- The `seen`/`unique` de-duplication loop used by both
`extract_thread_links` and `discover_all_threads`:

```
seen, unique = set(), []
for t in all_threads:
    if t['id'] not in seen:
        seen.add(t['id']); unique.append(t)
```
-/
def dedupById : List ContentUnit → List String → List ContentUnit
  | [], _ => []
  | t :: ts, seen =>
    if t.id ∈ seen then dedupById ts seen
    else t :: dedupById ts (t.id :: seen)

/-- `VBulletinBackup.extract_thread_links`, with the BeautifulSoup scan of
the three accepted link shapes abstracted as `rawLinks html` (the
`thread_links` list the source accumulates before its final
de-duplication pass). -/
def extractThreadLinks (rawLinks : String → List ContentUnit) (html : String) :
    List ContentUnit :=
  dedupById (rawLinks html) []

/-! ### `VBulletinBackup.get_all_pages_urls` -/

/-- Substring test (Python `pat in s`) on character lists. -/
def hasSubList (pat : List Char) : List Char → Bool
  | [] => pat.isEmpty
  | c :: rest => pat.isPrefixOf (c :: rest) || hasSubList pat rest

/-- Core of `re.sub(r'/page-\d+', '', s)`: delete every non-overlapping
leftmost match of `/page-` followed by a maximal nonempty digit run.
Any `fuel ≥ length` is enough fuel. -/
def stripPageSegsCore : Nat → List Char → List Char
  | 0, l => l
  | fuel + 1, l =>
    match l with
    | '/' :: 'p' :: 'a' :: 'g' :: 'e' :: '-' :: rest =>
      if (rest.takeWhile Char.isDigit).isEmpty then
        '/' :: stripPageSegsCore fuel ('p' :: 'a' :: 'g' :: 'e' :: '-' :: rest)
      else
        stripPageSegsCore fuel (rest.dropWhile Char.isDigit)
    | c :: rest => c :: stripPageSegsCore fuel rest
    | [] => []

/-- Python `re.sub(r'/page-\d+', '', s)` on a character list. -/
def stripPageSegsList (l : List Char) : List Char := stripPageSegsCore l.length l

/-- The body of the page-synthesis loop in
`VBulletinBackup.get_all_pages_urls`:

```
if page_num == 1: pages.append(section_url)
elif "/page-" in section_url:
    pages.append(re.sub(r'/page-\d+','',section_url.rstrip('/'))+f"/page-{page_num}")
elif '?' in section_url:
    pages.append(f"{section_url}&page={page_num}")
else:
    pages.append(f"{section_url}?page={page_num}")
```
-/
def buildPageUrl (sectionUrl : String) (pageNum : Nat) : String :=
  if pageNum = 1 then sectionUrl
  else if hasSubList "/page-".data sectionUrl.data then
    ⟨stripPageSegsList (rstripSlashList sectionUrl.data)⟩ ++ "/page-" ++ natToDec pageNum
  else if sectionUrl.data.contains '?' then
    sectionUrl ++ "&page=" ++ natToDec pageNum
  else
    sectionUrl ++ "?page=" ++ natToDec pageNum

/-- `VBulletinBackup.get_all_pages_urls`.  The BeautifulSoup scan of the
fetched listing page for `(?:[?&]page=|/page-)(\d+)` matches is abstracted
as `findNums html` (the `page_numbers` collection); the synthesis loop runs
over `range(start_page, max(page_numbers)+1)`. -/
def getAllPagesUrls (fetch : String → Option String) (findNums : String → List Nat)
    (startPage : Nat) (sectionUrl : String) : List String :=
  match fetch sectionUrl with
  | none => [sectionUrl]
  | some html =>
    let nums := findNums html
    if nums.isEmpty then [sectionUrl]
    else
      sectionUrl ::
        (List.range' startPage (nums.foldl max 0 + 1 - startPage)).map
          (buildPageUrl sectionUrl)

/-! ### `VBulletinBackup.discover_all_threads` -/

/-- The aggregate `all_threads` list collected across all listing pages
(the worker pool is serialised in listing-page order; a failed fetch
contributes no units). -/
def aggregateThreads (fetch : String → Option String) (findNums : String → List Nat)
    (rawLinks : String → List ContentUnit) (startPage : Nat) (baseUrl : String) :
    List ContentUnit :=
  (getAllPagesUrls fetch findNums startPage baseUrl).flatMap fun p =>
    match fetch p with
    | none => []
    | some html => extractThreadLinks rawLinks html

/-- `VBulletinBackup.discover_all_threads`: aggregate all pages, then
de-duplicate by id keeping first-seen entries. -/
def discoverAllThreads (fetch : String → Option String) (findNums : String → List Nat)
    (rawLinks : String → List ContentUnit) (startPage : Nat) (baseUrl : String) :
    List ContentUnit :=
  dedupById (aggregateThreads fetch findNums rawLinks startPage baseUrl) []

/-! ### Properties of the de-duplication pass -/

theorem dedupById_sublist (l : List ContentUnit) (seen : List String) :
    (dedupById l seen).Sublist l := by
  induction l generalizing seen with
  | nil => simp [dedupById]
  | cons t ts ih =>
    simp only [dedupById]
    by_cases h : t.id ∈ seen
    · simp only [h, if_true]
      exact (ih seen).cons t
    · simp only [h, if_false]
      exact (ih (t.id :: seen)).cons₂ t

theorem dedupById_id_not_seen {l : List ContentUnit} {seen : List String} :
    ∀ v ∈ dedupById l seen, v.id ∉ seen := by
  induction l generalizing seen with
  | nil => simp [dedupById]
  | cons t ts ih =>
    simp only [dedupById]
    by_cases h : t.id ∈ seen
    · simp only [h, if_true]
      exact ih
    · simp only [h, if_false]
      intro v hv
      rcases List.mem_cons.mp hv with rfl | hv'
      · exact h
      · have := ih v hv'
        intro hvs
        exact this (List.mem_cons_of_mem _ hvs)

theorem dedupById_pairwise (l : List ContentUnit) (seen : List String) :
    (dedupById l seen).Pairwise (fun a b => a.id ≠ b.id) := by
  induction l generalizing seen with
  | nil => simp [dedupById]
  | cons t ts ih =>
    simp only [dedupById]
    by_cases h : t.id ∈ seen
    · simp only [h, if_true]
      exact ih seen
    · simp only [h, if_false]
      refine List.Pairwise.cons ?_ (ih (t.id :: seen))
      intro v hv
      have := dedupById_id_not_seen v hv
      intro he
      exact this (he ▸ List.mem_cons_self _ _)

theorem dedupById_covers {l : List ContentUnit} (seen : List String) :
    ∀ u ∈ l, u.id ∈ seen ∨ ∃ v ∈ dedupById l seen, v.id = u.id := by
  induction l generalizing seen with
  | nil => simp
  | cons t ts ih =>
    intro u hu
    simp only [dedupById]
    by_cases h : t.id ∈ seen
    · simp only [h, if_true]
      rcases List.mem_cons.mp hu with rfl | hu'
      · exact Or.inl h
      · exact ih seen u hu'
    · simp only [h, if_false]
      rcases List.mem_cons.mp hu with rfl | hu'
      · exact Or.inr ⟨u, List.mem_cons_self _ _, rfl⟩
      · rcases ih (t.id :: seen) u hu' with hs | ⟨v, hv, hvid⟩
        · rcases List.mem_cons.mp hs with he | hs'
          · exact Or.inr ⟨t, List.mem_cons_self _ _, he.symm⟩
          · exact Or.inl hs'
        · exact Or.inr ⟨v, List.mem_cons_of_mem _ hv, hvid⟩

theorem dedupById_first_seen {l : List ContentUnit} {seen : List String} :
    ∀ v ∈ dedupById l seen, l.find? (fun t => t.id == v.id) = some v := by
  induction l generalizing seen with
  | nil => simp [dedupById]
  | cons t ts ih =>
    intro v hv
    simp only [dedupById] at hv
    by_cases h : t.id ∈ seen
    · simp only [h, if_true] at hv
      have hns := dedupById_id_not_seen v hv
      have hne : (t.id == v.id) = false := by
        simp only [beq_eq_false_iff_ne, ne_eq]
        intro he
        exact hns (he ▸ h)
      rw [List.find?_cons, hne]
      exact ih v hv
    · simp only [h, if_false] at hv
      rcases List.mem_cons.mp hv with rfl | hv'
      · rw [List.find?_cons]
        simp
      · have hns := dedupById_id_not_seen v hv'
        have hne : (t.id == v.id) = false := by
          simp only [beq_eq_false_iff_ne, ne_eq]
          intro he
          exact hns (he ▸ List.mem_cons_self _ _)
        rw [List.find?_cons, hne]
        exact ih v hv'

/-! ### Claim C10: normalization is idempotent -/

/-- C10: URL normalization in the Site Mirror Crawler is idempotent: for
every URL string `u`, `_normalize (_normalize u) = _normalize u` (it
removes the fragment and all trailing slashes), so every member of the
visited set is a fixed point of normalization and re-normalizing a
dequeued URL can never produce a new, unvisited key for the same URL. -/
theorem C10_normalize_idempotent (u : String) :
    MirrorCrawler.normalize (MirrorCrawler.normalize u) = MirrorCrawler.normalize u := by
  show (⟨rstripSlashList (dropFragList (rstripSlashList (dropFragList u.data)))⟩ : String) =
    ⟨rstripSlashList (dropFragList u.data)⟩
  have hmem : ∀ c ∈ rstripSlashList (dropFragList u.data), c ≠ '#' := fun c hc =>
    mem_dropFragList (mem_rstripSlashList hc)
  rw [dropFragList_eq_self hmem, rstripSlashList_idem]

/-! ### Claim C2: discovery de-duplication invariant -/

/-- C2: the list of ContentUnits returned by thread discovery contains no
two entries with the same id, regardless of how many listing pages
referenced the same unit; it is a sublist of the aggregated per-page
results (hence preserves their order), every aggregated id is represented,
and each returned entry is the first aggregated entry bearing its id
(first-seen order). -/
theorem C2_discover_dedup (fetch : String → Option String) (findNums : String → List Nat)
    (rawLinks : String → List ContentUnit) (startPage : Nat) (baseUrl : String) :
    (discoverAllThreads fetch findNums rawLinks startPage baseUrl).Pairwise
        (fun a b => a.id ≠ b.id) ∧
    (discoverAllThreads fetch findNums rawLinks startPage baseUrl).Sublist
        (aggregateThreads fetch findNums rawLinks startPage baseUrl) ∧
    (∀ u ∈ aggregateThreads fetch findNums rawLinks startPage baseUrl,
        ∃ v ∈ discoverAllThreads fetch findNums rawLinks startPage baseUrl, v.id = u.id) ∧
    (∀ v ∈ discoverAllThreads fetch findNums rawLinks startPage baseUrl,
        (aggregateThreads fetch findNums rawLinks startPage baseUrl).find?
          (fun t => t.id == v.id) = some v) := by
  refine ⟨dedupById_pairwise _ _, dedupById_sublist _ _, ?_, ?_⟩
  · intro u hu
    rcases dedupById_covers [] u hu with hs | h
    · simp at hs
    · exact h
  · intro v hv
    exact dedupById_first_seen v hv

/-- Concrete instantiation used by the C2 witness. -/
def fetchW2 : String → Option String := fun u => if u = "http://f/sec" then some "L" else none

/-- Concrete instantiation used by the C2 witness. -/
def rawLinksW2 : String → List ContentUnit := fun h =>
  if h = "L" then
    [⟨"1", "http://f/t1", "t one"⟩, ⟨"1", "http://f/t1b", "t one again"⟩,
     ⟨"2", "http://f/t2", "t two"⟩]
  else []

theorem C2_witness :
    ∃ v ∈ discoverAllThreads fetchW2 (fun _ => []) rawLinksW2 1 "http://f/sec",
      v.id = "1" := by
  have h := (C2_discover_dedup fetchW2 (fun _ => []) rawLinksW2 1 "http://f/sec").2.2.1
  exact h ⟨"1", "http://f/t1", "t one"⟩ (by decide)

/-! ### Claim C7: pagination discoverer enumeration -/

/-- Concrete fetch oracle for the C7 counterexample. -/
def fetchC7 : String → Option String := fun u => if u = "http://f/sec" then some "L" else none

/-- Concrete page-number scan for the C7 counterexample: the listing page
advertises page 2. -/
def findNumsC7 : String → List Nat := fun h => if h = "L" then [2] else []

/-- Counterexample to C7 as stated: with page indicator `2` found and start
page 1, `get_all_pages_urls` returns three URLs — the input URL twice plus
the page-2 URL — not one URL per page from the start page through the
maximum (which would be two distinct URLs). -/
theorem C7_counterexample :
    getAllPagesUrls fetchC7 findNumsC7 1 "http://f/sec" =
      ["http://f/sec", "http://f/sec", "http://f/sec?page=2"] ∧
    ¬ (getAllPagesUrls fetchC7 findNumsC7 1 "http://f/sec").Nodup := by
  constructor <;> decide

/-- C7 (amended): `get_all_pages_urls` returns exactly the single input URL
when the fetch fails or no numeric page indicator is found; when indicators
are found it returns the input URL followed by one URL per page from the
configured start page through the maximum observed page number (page 1 is
rendered as the input URL itself, so with start page 1 the input URL appears
twice), and each synthesized URL is built by the `/page-N` path-segment rule,
the `&page=` append rule, or the `?page=` append rule according to the input
URL's shape. -/
theorem C7_pages_enumeration (fetch : String → Option String)
    (findNums : String → List Nat) (startPage : Nat) (u : String) :
    (fetch u = none → getAllPagesUrls fetch findNums startPage u = [u]) ∧
    (∀ html, fetch u = some html → findNums html = [] →
        getAllPagesUrls fetch findNums startPage u = [u]) ∧
    (∀ html, fetch u = some html → findNums html ≠ [] →
        getAllPagesUrls fetch findNums startPage u =
          u :: (List.range' startPage ((findNums html).foldl max 0 + 1 - startPage)).map
            (buildPageUrl u)) ∧
    (buildPageUrl u 1 = u) ∧
    (∀ n, n ≠ 1 → hasSubList "/page-".data u.data = true →
        buildPageUrl u n =
          (⟨stripPageSegsList (rstripSlashList u.data)⟩ : String) ++ "/page-" ++ natToDec n) ∧
    (∀ n, n ≠ 1 → hasSubList "/page-".data u.data = false → u.data.contains '?' = true →
        buildPageUrl u n = u ++ "&page=" ++ natToDec n) ∧
    (∀ n, n ≠ 1 → hasSubList "/page-".data u.data = false → u.data.contains '?' = false →
        buildPageUrl u n = u ++ "?page=" ++ natToDec n) := by
  refine ⟨?_, ?_, ?_, ?_, ?_, ?_, ?_⟩
  · intro h
    simp [getAllPagesUrls, h]
  · intro html h hn
    simp [getAllPagesUrls, h, hn]
  · intro html h hn
    simp [getAllPagesUrls, h, List.isEmpty_iff, hn]
  · simp [buildPageUrl]
  · intro n hn hs
    simp [buildPageUrl, hn, hs]
  · intro n hn hs hq
    have hq2 : '?' ∈ u.data := by simpa using hq
    simp [buildPageUrl, hn, hs, hq2]
  · intro n hn hs hq
    have hq2 : '?' ∉ u.data := by simpa using hq
    simp [buildPageUrl, hn, hs, hq2]

theorem C7_witness :
    getAllPagesUrls fetchC7 findNumsC7 1 "http://f/sec" =
      "http://f/sec" :: (List.range' 1 2).map (buildPageUrl "http://f/sec") ∧
    buildPageUrl "http://f/sec" 2 = "http://f/sec" ++ "?page=" ++ natToDec 2 := by
  constructor
  · exact (C7_pages_enumeration fetchC7 findNumsC7 1 "http://f/sec").2.2.1 "L"
      (by decide) (by decide)
  · exact (C7_pages_enumeration fetchC7 findNumsC7 1 "http://f/sec").2.2.2.2.2.2 2
      (by decide) (by decide) (by decide)

/-! ### Media store: filename machinery (`MediaDownloader.download_from_html`) -/

/-- Python `os.path.splitext` on a bare filename: split at the last dot,
unless every character before that dot is itself a dot. -/
def splitextList (l : List Char) : List Char × List Char :=
  match ((List.range l.length).filter (fun i => l.getD i ' ' = '.')).getLast? with
  | none => (l, [])
  | some si =>
    if (l.take si).any (fun c => c != '.') then (l.take si, l.drop si) else (l, [])

/-- Drop everything up to and including the first occurrence of `pat`. -/
def dropThroughSub (pat : List Char) : List Char → List Char
  | [] => []
  | c :: rest =>
    if pat.isPrefixOf (c :: rest) then (c :: rest).drop pat.length
    else dropThroughSub pat rest

/-- The `path` component of `urlparse`, for the common URL shapes the
source handles: strip `scheme://netloc` when a `://` separator is present,
then cut at the first `'?'` or `'#'`. -/
def urlPathList (l : List Char) : List Char :=
  let rest :=
    if hasSubList "://".data l then
      (dropThroughSub "://".data l).dropWhile (fun c => c != '/' && c != '?' && c != '#')
    else l
  rest.takeWhile (fun c => c != '?' && c != '#')

/-- Python `os.path.basename`: everything after the last `'/'`. -/
def basenameList (l : List Char) : List Char :=
  (l.reverse.takeWhile (fun c => c != '/')).reverse

/-- The characters `safe_filename` replaces with `'_'`. -/
def badFileChar (c : Char) : Bool :=
  c = '<' || c = '>' || c = ':' || c = '"' || c = '/' || c = '\\' || c = '|' ||
    c = '?' || c = '*' || c = '\n' || c = '\r' || c = '\t'

/-- `safe_filename(name, maxlen)`:
`re.sub(r'[<>:"/\\|?*\n\r\t]', '_', name)[:maxlen]`. -/
def safeFilenameList (l : List Char) (maxlen : Nat) : List Char :=
  (l.map fun c => if badFileChar c then '_' else c).take maxlen

/-- `get_ext(url)`: extension of the URL path, lower-cased. -/
def getExt (url : String) : String :=
  ⟨((splitextList (urlPathList url.data)).2).map Char.toLower⟩

/-- The filename `download_from_html` derives for a media URL before
collision resolution:

```
ext  = get_ext(url) or '.bin'
fname = safe_filename(os.path.basename(urlparse(url).path) or 'media', 120)
if not fname.lower().endswith(ext): fname += ext
```
-/
def deriveFname (url : String) : String :=
  let ext := if getExt url = "" then ".bin" else getExt url
  let b := basenameList (urlPathList url.data)
  let f0 := safeFilenameList (if b.isEmpty then "media".data else b) 120
  if ext.data.isSuffixOf (f0.map Char.toLower) then ⟨f0⟩ else (⟨f0⟩ : String) ++ ext

/-- The `k`-th collision candidate: `f"{base}_{counter}{e}"` where
`base, e = os.path.splitext(fname)`. -/
def candName (fname : String) (k : Nat) : String :=
  (⟨(splitextList fname.data).1⟩ : String) ++ "_" ++ natToDec k ++
    ⟨(splitextList fname.data).2⟩

/-- The collision `while` loop, starting at counter `k`; `fuel` bounds the
iterations (`files.length + 1` is always enough, by `freeName_not_mem`). -/
def freeNameAux (files : List String) (fname : String) : Nat → Nat → String
  | 0, k => candName fname k
  | fuel + 1, k =>
    if candName fname k ∈ files then freeNameAux files fname fuel (k + 1)
    else candName fname k

/-- The collision-safe filename the source settles on:

```
fpath = os.path.join(self.media_dir, fname)
counter = 1
while os.path.exists(fpath):
    base, e = os.path.splitext(fname)
    fpath = os.path.join(self.media_dir, f"{base}_{counter}{e}")
    counter += 1
```
-/
def freeName (files : List String) (fname : String) : String :=
  if fname ∈ files then freeNameAux files fname (files.length + 1) 1 else fname

theorem candName_injective (fname : String) : Function.Injective (candName fname) := by
  intro a b h
  apply natToDec_injective
  unfold candName at h
  have hd := congrArg String.data h
  simp only [String.data_append] at hd
  have h1 := List.append_cancel_right hd
  have h2 := List.append_cancel_left h1
  exact String.ext h2

theorem exists_free_cand (files : List String) (fname : String) :
    ∃ j < files.length + 1, candName fname (1 + j) ∉ files := by
  by_contra hcon
  push_neg at hcon
  have hinj : Set.InjOn (fun j => candName fname (1 + j))
      ↑(Finset.range (files.length + 1)) := by
    intro a _ b _ hab
    have := candName_injective fname hab
    omega
  have hsub : (Finset.range (files.length + 1)).image (fun j => candName fname (1 + j)) ⊆
      files.toFinset := by
    intro x hx
    simp only [Finset.mem_image, Finset.mem_range] at hx
    obtain ⟨j, hj, rfl⟩ := hx
    exact List.mem_toFinset.mpr (hcon j hj)
  have hcard := Finset.card_le_card hsub
  rw [Finset.card_image_of_injOn hinj, Finset.card_range] at hcard
  have := List.toFinset_card_le files
  omega

theorem freeNameAux_not_mem (files : List String) (fname : String) :
    ∀ fuel k, (∃ j < fuel, candName fname (k + j) ∉ files) →
      freeNameAux files fname fuel k ∉ files := by
  intro fuel
  induction fuel with
  | zero =>
    intro k h
    obtain ⟨j, hj, _⟩ := h
    omega
  | succ fuel ih =>
    intro k h
    obtain ⟨j, hj, hfree⟩ := h
    rw [freeNameAux]
    by_cases hk : candName fname k ∈ files
    · simp only [hk, if_true]
      apply ih
      match j, hj with
      | 0, _ => exact absurd hk (by simpa using hfree)
      | j' + 1, hj =>
        refine ⟨j', by omega, ?_⟩
        have : k + 1 + j' = k + (j' + 1) := by omega
        rw [this]
        exact hfree
    · simpa [hk]

/-- The chosen filename never names an existing file: collision renaming
never overwrites. -/
theorem freeName_not_mem (files : List String) (fname : String) :
    freeName files fname ∉ files := by
  unfold freeName
  by_cases h : fname ∈ files
  · simp only [h, if_true]
    apply freeNameAux_not_mem
    obtain ⟨j, hj, hf⟩ := exists_free_cand files fname
    exact ⟨j, hj, hf⟩
  · simpa [h]

/-! ### Media store: the download loop -/

/-- A never-set cancellation flag. -/
def noStop : Nat → Bool := fun _ => false

/-- Media store state: the files present in the media directory and the
persistent `url → filename` index. -/
structure MediaDL where
  files : List String
  index : List (String × String)
deriving DecidableEq

/-- One harvest run's accumulated effects: store state, the log of URLs
actually fetched from the network (in order), and the `downloaded`
counter. -/
structure MediaRun where
  st : MediaDL
  fetched : List String
  downloaded : Nat
deriving DecidableEq

/-- The download loop of `MediaDownloader.download_from_html` over the
already-harvested `media_urls` list:

```
for url in media_urls:
    if self._stop.is_set(): break
    if url in self._index: continue
    data = self._fetch_bytes(url)
    if data is None: continue
    ... derive fname, resolve collisions ...
    with open(fpath,'wb') as f: f.write(data)
    self._index[url] = os.path.basename(fpath)
    downloaded += 1
```
The model write always succeeds; each iteration advances the clock. -/
def downloadLoop (stop : Nat → Bool) (fetchB : String → Option String) :
    List String → MediaRun → Nat → MediaRun × Nat
  | [], r, tick => (r, tick)
  | url :: rest, r, tick =>
    if stop tick then (r, tick)
    else if (r.st.index.lookup url).isSome then
      downloadLoop stop fetchB rest r (tick + 1)
    else
      match fetchB url with
      | none => downloadLoop stop fetchB rest
          { r with fetched := r.fetched ++ [url] } (tick + 1)
      | some _data =>
        let chosen := freeName r.st.files (deriveFname url)
        downloadLoop stop fetchB rest
          { st := { files := r.st.files ++ [chosen],
                    index := r.st.index ++ [(url, chosen)] },
            fetched := r.fetched ++ [url],
            downloaded := r.downloaded + 1 } (tick + 1)

/-- `MediaDownloader.download_from_html`, with the BeautifulSoup harvest of
media-bearing attributes abstracted as `extractUrls html baseUrl` (the
`media_urls` list: absolutized http(s) URLs with a known media extension,
already de-duplicated by the `set`). -/
def downloadFromHtml (stop : Nat → Bool) (fetchB : String → Option String)
    (extractUrls : String → String → List String) (html baseUrl : String)
    (r : MediaRun) (tick : Nat) : MediaRun × Nat :=
  downloadLoop stop fetchB (extractUrls html baseUrl) r tick

/-- Number of index entries recorded for key `u`. -/
def countKey (u : String) (l : List (String × String)) : Nat :=
  (l.filter (fun p => p.1 == u)).length

theorem lookup_cons_eval {β : Type} (u : String) (p : String × β) (l : List (String × β)) :
    List.lookup u (p :: l) = if u == p.1 then some p.2 else List.lookup u l := by
  rw [List.lookup]
  cases h : (u == p.1) <;> simp [h]

theorem lookup_append_single {β : Type} {u v : String} {w : β} {l : List (String × β)} :
    (l ++ [(v, w)]).lookup u = if (l.lookup u).isSome then l.lookup u
      else if u = v then some w else none := by
  induction l with
  | nil =>
    simp only [List.nil_append, lookup_cons_eval, List.lookup]
    by_cases h : u = v
    · simp [h]
    · simp [h, beq_eq_false_iff_ne.mpr h]
  | cons p l ih =>
    rw [List.cons_append, lookup_cons_eval, lookup_cons_eval]
    by_cases hp : (u == p.1)
    · simp [hp]
    · simp only [hp, Bool.false_eq_true, if_false]
      exact ih

theorem countKey_append_single_ne {u v w : String} {l : List (String × String)}
    (h : v ≠ u) : countKey u (l ++ [(v, w)]) = countKey u l := by
  simp [countKey, List.filter_append, h]

theorem countKey_append_single_eq {u w : String} {l : List (String × String)} :
    countKey u (l ++ [(u, w)]) = countKey u l + 1 := by
  simp [countKey, List.filter_append]

theorem lookup_none_keys {β : Type} {u : String} {l : List (String × β)}
    (h : l.lookup u = none) : ∀ p ∈ l, ¬ p.1 = u := by
  induction l with
  | nil => simp
  | cons q l ih =>
    rw [lookup_cons_eval] at h
    by_cases hq : (u == q.1)
    · simp [hq] at h
    · simp only [hq, Bool.false_eq_true, if_false] at h
      intro p hp
      rcases List.mem_cons.mp hp with rfl | hp'
      · have hqu : u ≠ p.1 := by simpa using hq
        exact fun he => hqu he.symm
      · exact ih h p hp'

theorem lookup_none_countKey {u : String} {l : List (String × String)}
    (h : l.lookup u = none) : countKey u l = 0 := by
  simp only [countKey, List.length_eq_zero]
  rw [List.filter_eq_nil]
  intro p hp
  have := lookup_none_keys h p hp
  simpa using this

/-- Once a URL is present in the index, a harvest pass never fetches it
again, never adds another entry for it, and keeps it present. -/
theorem downloadLoop_indexed_stable (fetchB : String → Option String) (u : String) :
    ∀ (urls : List String) (r : MediaRun) (tick : Nat),
      (r.st.index.lookup u).isSome →
      ((downloadLoop noStop fetchB urls r tick).1.fetched.count u = r.fetched.count u ∧
       countKey u (downloadLoop noStop fetchB urls r tick).1.st.index =
         countKey u r.st.index ∧
       ((downloadLoop noStop fetchB urls r tick).1.st.index.lookup u).isSome) := by
  intro urls
  induction urls with
  | nil => intro r tick h; exact ⟨rfl, rfl, h⟩
  | cons url rest ih =>
    intro r tick h
    by_cases hidx : ((r.st.index.lookup url).isSome : Prop)
    · have hstep : downloadLoop noStop fetchB (url :: rest) r tick =
          downloadLoop noStop fetchB rest r (tick + 1) := by
        simp [downloadLoop, noStop, hidx]
      rw [hstep]
      exact ih r (tick + 1) h
    · have hne : url ≠ u := fun he => hidx (by rw [he]; exact h)
      have hneb : (url == u) = false := beq_eq_false_iff_ne.mpr hne
      cases hf : fetchB url with
      | none =>
        have hstep : downloadLoop noStop fetchB (url :: rest) r tick =
            downloadLoop noStop fetchB rest
              ⟨r.st, r.fetched ++ [url], r.downloaded⟩ (tick + 1) := by
          simp [downloadLoop, noStop, hidx, hf]
        rw [hstep]
        have hrec := ih ⟨r.st, r.fetched ++ [url], r.downloaded⟩ (tick + 1) h
        refine ⟨?_, hrec.2.1, hrec.2.2⟩
        rw [hrec.1]
        simp [List.count_append, List.count_cons, hneb]
      | some d =>
        have hlook : ((⟨⟨r.st.files ++ [freeName r.st.files (deriveFname url)],
            r.st.index ++ [(url, freeName r.st.files (deriveFname url))]⟩,
            r.fetched ++ [url], r.downloaded + 1⟩ : MediaRun).st.index.lookup u).isSome := by
          show ((r.st.index ++ [(url, freeName r.st.files (deriveFname url))]).lookup u).isSome
          rw [lookup_append_single]
          simp [h]
        have hstep : downloadLoop noStop fetchB (url :: rest) r tick =
            downloadLoop noStop fetchB rest
              ⟨⟨r.st.files ++ [freeName r.st.files (deriveFname url)],
                r.st.index ++ [(url, freeName r.st.files (deriveFname url))]⟩,
                r.fetched ++ [url], r.downloaded + 1⟩ (tick + 1) := by
          simp [downloadLoop, noStop, hidx, hf]
        rw [hstep]
        have hrec := ih ⟨⟨r.st.files ++ [freeName r.st.files (deriveFname url)],
            r.st.index ++ [(url, freeName r.st.files (deriveFname url))]⟩,
            r.fetched ++ [url], r.downloaded + 1⟩ (tick + 1) hlook
        refine ⟨?_, ?_, hrec.2.2⟩
        · rw [hrec.1]
          simp [List.count_append, List.count_cons, hneb]
        · rw [hrec.2.1]
          exact countKey_append_single_ne hne

/-- A URL not yet indexed, referenced by the harvested list and fetchable,
is fetched exactly once and gains exactly one index entry. -/
theorem downloadLoop_first_harvest (fetchB : String → Option String) (u d : String) :
    ∀ (urls : List String) (r : MediaRun) (tick : Nat),
      r.st.index.lookup u = none → u ∈ urls → fetchB u = some d →
      ((downloadLoop noStop fetchB urls r tick).1.fetched.count u =
          r.fetched.count u + 1 ∧
       countKey u (downloadLoop noStop fetchB urls r tick).1.st.index =
          countKey u r.st.index + 1 ∧
       ((downloadLoop noStop fetchB urls r tick).1.st.index.lookup u).isSome) := by
  intro urls
  induction urls with
  | nil => intro r tick _ hmem; exact absurd hmem (List.not_mem_nil u)
  | cons url rest ih =>
    intro r tick hnone hmem hfetch
    by_cases hu : url = u
    · subst hu
      have hlook : ((⟨⟨r.st.files ++ [freeName r.st.files (deriveFname url)],
          r.st.index ++ [(url, freeName r.st.files (deriveFname url))]⟩,
          r.fetched ++ [url], r.downloaded + 1⟩ : MediaRun).st.index.lookup url).isSome := by
        show ((r.st.index ++ [(url, freeName r.st.files (deriveFname url))]).lookup
          url).isSome
        rw [lookup_append_single]
        simp [hnone]
      have hstep : downloadLoop noStop fetchB (url :: rest) r tick =
          downloadLoop noStop fetchB rest
            ⟨⟨r.st.files ++ [freeName r.st.files (deriveFname url)],
              r.st.index ++ [(url, freeName r.st.files (deriveFname url))]⟩,
              r.fetched ++ [url], r.downloaded + 1⟩ (tick + 1) := by
        simp [downloadLoop, noStop, hnone, hfetch]
      rw [hstep]
      have hrec := downloadLoop_indexed_stable fetchB url rest
        ⟨⟨r.st.files ++ [freeName r.st.files (deriveFname url)],
          r.st.index ++ [(url, freeName r.st.files (deriveFname url))]⟩,
          r.fetched ++ [url], r.downloaded + 1⟩ (tick + 1) hlook
      refine ⟨?_, ?_, hrec.2.2⟩
      · rw [hrec.1]
        simp [List.count_append, List.count_cons]
      · rw [hrec.2.1]
        exact countKey_append_single_eq
    · have hmem' : u ∈ rest := by
        rcases List.mem_cons.mp hmem with he | h'
        · exact absurd he.symm hu
        · exact h'
      have hub : (url == u) = false := beq_eq_false_iff_ne.mpr hu
      by_cases hidx : ((r.st.index.lookup url).isSome : Prop)
      · have hstep : downloadLoop noStop fetchB (url :: rest) r tick =
            downloadLoop noStop fetchB rest r (tick + 1) := by
          simp [downloadLoop, noStop, hidx]
        rw [hstep]
        exact ih r (tick + 1) hnone hmem' hfetch
      · cases hf : fetchB url with
        | none =>
          have hstep : downloadLoop noStop fetchB (url :: rest) r tick =
              downloadLoop noStop fetchB rest
                ⟨r.st, r.fetched ++ [url], r.downloaded⟩ (tick + 1) := by
            simp [downloadLoop, noStop, hidx, hf]
          rw [hstep]
          have hrec := ih ⟨r.st, r.fetched ++ [url], r.downloaded⟩ (tick + 1) hnone
            hmem' hfetch
          refine ⟨?_, hrec.2.1, hrec.2.2⟩
          rw [hrec.1]
          simp [List.count_append, List.count_cons, hub]
        | some dd =>
          have hnone2 : ((⟨⟨r.st.files ++ [freeName r.st.files (deriveFname url)],
              r.st.index ++ [(url, freeName r.st.files (deriveFname url))]⟩,
              r.fetched ++ [url], r.downloaded + 1⟩ : MediaRun).st.index.lookup u) =
                none := by
            show ((r.st.index ++ [(url, freeName r.st.files (deriveFname url))]).lookup
              u) = none
            rw [lookup_append_single]
            simp [hnone]
            exact fun he => absurd he.symm hu
          have hstep : downloadLoop noStop fetchB (url :: rest) r tick =
              downloadLoop noStop fetchB rest
                ⟨⟨r.st.files ++ [freeName r.st.files (deriveFname url)],
                  r.st.index ++ [(url, freeName r.st.files (deriveFname url))]⟩,
                  r.fetched ++ [url], r.downloaded + 1⟩ (tick + 1) := by
            simp [downloadLoop, noStop, hidx, hf]
          rw [hstep]
          have hrec := ih ⟨⟨r.st.files ++ [freeName r.st.files (deriveFname url)],
              r.st.index ++ [(url, freeName r.st.files (deriveFname url))]⟩,
              r.fetched ++ [url], r.downloaded + 1⟩ (tick + 1) hnone2 hmem' hfetch
          refine ⟨?_, ?_, hrec.2.2⟩
          · rw [hrec.1]
            simp [List.count_append, List.count_cons, hub]
          · rw [hrec.2.1]
            show countKey u (r.st.index ++
              [(url, freeName r.st.files (deriveFname url))]) + 1 =
                countKey u r.st.index + 1
            rw [countKey_append_single_ne hu]

/-! ### Claim C3: media store invariant -/

/-- C3: within one MediaDownloader instance, a URL harvested twice (two
`download_from_html` calls whose harvested lists both reference it) is
fetched from the network exactly once and ends with exactly one index
entry; and the collision-resolved filename chosen for any write never
names an existing file, so a collision-renamed file never overwrites an
existing one. -/
theorem C3_media_store_invariant (fetchB : String → Option String)
    (extractUrls : String → String → List String)
    (html1 base1 html2 base2 u d : String) (st : MediaDL) (tick1 tick2 : Nat)
    (h0 : st.index.lookup u = none)
    (h1 : u ∈ extractUrls html1 base1)
    (h2 : u ∈ extractUrls html2 base2)
    (h3 : fetchB u = some d) :
    ((downloadFromHtml noStop fetchB extractUrls html2 base2
        (downloadFromHtml noStop fetchB extractUrls html1 base1
          ⟨st, [], 0⟩ tick1).1 tick2).1.fetched.count u = 1 ∧
     countKey u (downloadFromHtml noStop fetchB extractUrls html2 base2
        (downloadFromHtml noStop fetchB extractUrls html1 base1
          ⟨st, [], 0⟩ tick1).1 tick2).1.st.index = 1) ∧
    (∀ (files : List String) (fname : String), freeName files fname ∉ files) := by
  have hrun1 := downloadLoop_first_harvest fetchB u d (extractUrls html1 base1)
    ⟨st, [], 0⟩ tick1 h0 h1 h3
  have hrun2 := downloadLoop_indexed_stable fetchB u (extractUrls html2 base2)
    (downloadLoop noStop fetchB (extractUrls html1 base1) ⟨st, [], 0⟩ tick1).1
    tick2 hrun1.2.2
  refine ⟨⟨?_, ?_⟩, fun files fname => freeName_not_mem files fname⟩
  · show List.count u (downloadLoop noStop fetchB (extractUrls html2 base2)
        (downloadLoop noStop fetchB (extractUrls html1 base1)
          ⟨st, [], 0⟩ tick1).1 tick2).1.fetched = 1
    rw [hrun2.1, hrun1.1]
    simp
  · show countKey u (downloadLoop noStop fetchB (extractUrls html2 base2)
        (downloadLoop noStop fetchB (extractUrls html1 base1)
          ⟨st, [], 0⟩ tick1).1 tick2).1.st.index = 1
    rw [hrun2.2.1, hrun1.2.1]
    show countKey u st.index + 1 = 1
    rw [lookup_none_countKey h0]

/-- Concrete harvest oracle for the C3 witness. -/
def extractUrlsW3 : String → String → List String := fun h _ =>
  if h = "H" then ["http://m/pix.png"] else []

/-- Concrete fetch oracle for the C3 witness. -/
def fetchBW3 : String → Option String := fun v =>
  if v = "http://m/pix.png" then some "DATA" else none

theorem C3_witness :
    (downloadFromHtml noStop fetchBW3 extractUrlsW3 "H" "http://m/"
        (downloadFromHtml noStop fetchBW3 extractUrlsW3 "H" "http://m/"
          ⟨⟨[], []⟩, [], 0⟩ 0).1 0).1.fetched.count "http://m/pix.png" = 1 ∧
    countKey "http://m/pix.png"
      (downloadFromHtml noStop fetchBW3 extractUrlsW3 "H" "http://m/"
        (downloadFromHtml noStop fetchBW3 extractUrlsW3 "H" "http://m/"
          ⟨⟨[], []⟩, [], 0⟩ 0).1 0).1.st.index = 1 ∧
    freeName ["pix.png"] "pix.png" ∉ ["pix.png"] := by
  have h := C3_media_store_invariant fetchBW3 extractUrlsW3 "H" "http://m/" "H"
    "http://m/" "http://m/pix.png" "DATA" ⟨[], []⟩ 0 0
    (by decide) (by decide) (by decide) (by decide)
  exact ⟨h.1.1, h.1.2, h.2 ["pix.png"] "pix.png"⟩

/-! ### Content extraction: text cleaning and date parsing -/

/-- Python whitespace for `str.strip()` / `str.split()` (the characters the
source's inputs can contain; `\xa0` is whitespace for Python too). -/
def pyWs (c : Char) : Bool :=
  c = ' ' || c = '\t' || c = '\n' || c = '\r' || c = '\x0b' || c = '\x0c' || c = '\xa0'

/-- Python `str.strip()`. -/
def pyStripList (l : List Char) : List Char :=
  ((l.dropWhile pyWs).reverse.dropWhile pyWs).reverse

/-- Python `str.split()` (split on whitespace runs, no empty words);
`acc` holds the current word reversed. -/
def pySplitAux : List Char → List Char → List (List Char)
  | [], acc => if acc.isEmpty then [] else [acc.reverse]
  | c :: rest, acc =>
    if pyWs c then
      if acc.isEmpty then pySplitAux rest [] else acc.reverse :: pySplitAux rest []
    else pySplitAux rest (c :: acc)

/-- `' '.join(words)`. -/
def joinSpace : List (List Char) → List Char
  | [] => []
  | [w] => w
  | w :: ws => w ++ ' ' :: joinSpace ws

/-- `clean_text`:
`' '.join(text.strip().replace('\r','').replace('\xa0',' ').split())`. -/
def cleanText (s : String) : String :=
  let t := ((pyStripList s.data).filter (fun c => c != '\r')).map
    (fun c => if c = '\xa0' then ' ' else c)
  ⟨joinSpace (pySplitAux t [])⟩

/-- Python `str.split(sep)` for a one-character separator (keeps empty
parts). -/
def splitOnChar (sep : Char) : List Char → List (List Char)
  | [] => [[]]
  | c :: rest =>
    let r := splitOnChar sep rest
    if c = sep then [] :: r
    else
      match r with
      | w :: ws => (c :: w) :: ws
      | [] => [[c]]

/-- Consume `pat` case-insensitively from the head of `l` (the `strptime`
regex is compiled with `IGNORECASE`); returns the remainder. -/
def matchCaseInsens : List Char → List Char → Option (List Char)
  | [], l => some l
  | _ :: _, [] => none
  | p :: ps, c :: cs => if c.toLower = p.toLower then matchCaseInsens ps cs else none

/-- The `%b` month abbreviations, in `strptime` alternation order. -/
def monthAbbrevs : List (List Char × Nat) :=
  [("Jan".data, 1), ("Feb".data, 2), ("Mar".data, 3), ("Apr".data, 4),
   ("May".data, 5), ("Jun".data, 6), ("Jul".data, 7), ("Aug".data, 8),
   ("Sep".data, 9), ("Oct".data, 10), ("Nov".data, 11), ("Dec".data, 12)]

def matchMonthAux : List (List Char × Nat) → List Char → Option (Nat × List Char)
  | [], _ => none
  | (nm, v) :: rest, l =>
    match matchCaseInsens nm l with
    | some rem => some (v, rem)
    | none => matchMonthAux rest l

/-- `%b`: match a month abbreviation. -/
def matchMonth (l : List Char) : Option (Nat × List Char) := matchMonthAux monthAbbrevs l

/-- A literal whitespace in the format string: `\s+`. -/
def skipWs1 : List Char → Option (List Char)
  | c :: cs => if pyWs c then some (cs.dropWhile pyWs) else none
  | [] => none

/-- A literal character in the format string. -/
def matchLit (c : Char) : List Char → Option (List Char)
  | x :: rest => if x = c then some rest else none
  | [] => none

/-- `%d`: the regex `(3[01]|[12]\d|0[1-9]|[1-9])`. -/
def matchDay : List Char → Option (Nat × List Char)
  | c1 :: c2 :: rest =>
    if c1.isDigit && c2.isDigit &&
        ((c1 = '3' && (c2 = '0' || c2 = '1')) || c1 = '1' || c1 = '2' ||
         (c1 = '0' && decide (1 ≤ decDigit c2))) then
      some (decDigit c1 * 10 + decDigit c2, rest)
    else if c1.isDigit && decide (1 ≤ decDigit c1) then some (decDigit c1, c2 :: rest)
    else none
  | [c1] => if c1.isDigit && decide (1 ≤ decDigit c1) then some (decDigit c1, []) else none
  | [] => none

/-- `%Y`: the regex `\d\d\d\d` (exactly four digits, as in CPython's
`_strptime.TimeRE`). -/
def matchYear : List Char → Option (Nat × List Char)
  | c1 :: c2 :: c3 :: c4 :: rest =>
    if c1.isDigit && c2.isDigit && c3.isDigit && c4.isDigit then
      some (((decDigit c1 * 10 + decDigit c2) * 10 + decDigit c3) * 10 + decDigit c4,
        rest)
    else none
  | _ => none

/-- `%I`: the regex `(1[0-2]|0[1-9]|[1-9])`. -/
def matchHour : List Char → Option (Nat × List Char)
  | c1 :: c2 :: rest =>
    if c1.isDigit && c2.isDigit &&
        ((c1 = '1' && decide (decDigit c2 ≤ 2)) || (c1 = '0' && decide (1 ≤ decDigit c2))) then
      some (decDigit c1 * 10 + decDigit c2, rest)
    else if c1.isDigit && decide (1 ≤ decDigit c1) then some (decDigit c1, c2 :: rest)
    else none
  | [c1] => if c1.isDigit && decide (1 ≤ decDigit c1) then some (decDigit c1, []) else none
  | [] => none

/-- `%M`: the regex `([0-5]\d|\d)`. -/
def matchMinute : List Char → Option (Nat × List Char)
  | c1 :: c2 :: rest =>
    if c1.isDigit && c2.isDigit && decide (decDigit c1 ≤ 5) then
      some (decDigit c1 * 10 + decDigit c2, rest)
    else if c1.isDigit then some (decDigit c1, c2 :: rest)
    else none
  | [c1] => if c1.isDigit then some (decDigit c1, []) else none
  | [] => none

/-- `%p`: `AM` or `PM`, case-insensitively; `true` means PM. -/
def matchAmPm (l : List Char) : Option (Bool × List Char) :=
  match matchCaseInsens "AM".data l with
  | some r => some (false, r)
  | none =>
    match matchCaseInsens "PM".data l with
    | some r => some (true, r)
    | none => none

/-- Day count of a month (for `datetime`'s day-of-month validation). -/
def daysInMonth (y m : Nat) : Nat :=
  if m = 2 then (if (y % 4 = 0 && y % 100 != 0) || y % 400 = 0 then 29 else 28)
  else if m = 4 || m = 6 || m = 9 || m = 11 then 30 else 31

/-- `parse_date`: `datetime.strptime(text, '%b %d, %Y at %I:%M %p')`,
returning `none` on any parse or range failure and otherwise an
order-preserving mixed-radix encoding of the parsed datetime
`(((y*13 + m)*32 + d)*24 + h24)*60 + minute`. -/
def parseDateTail (pm : Bool) (y m d h mi : Nat) : List Char → Option Nat
  | _ :: _ => none
  | [] =>
    if !(1 ≤ y && y ≤ 9999 && 1 ≤ d && d ≤ daysInMonth y m && mi ≤ 59) then none
    else
      let h24 := if pm then (if h = 12 then 12 else h + 12) else (if h = 12 then 0 else h)
      some ((((y * 13 + m) * 32 + d) * 24 + h24) * 60 + mi)

def parseDateStage4 (y m d h mi : Nat) (r : List Char) : Option Nat :=
  match skipWs1 r with
  | none => none
  | some r =>
    match matchAmPm r with
    | none => none
    | some (pm, r) => parseDateTail pm y m d h mi r

def parseDateStage3 (y m d : Nat) (r : List Char) : Option Nat :=
  match matchHour r with
  | none => none
  | some (h, r) =>
    match matchLit ':' r with
    | none => none
    | some r =>
      match matchMinute r with
      | none => none
      | some (mi, r) => parseDateStage4 y m d h mi r

def parseDateStage2 (m d : Nat) (r : List Char) : Option Nat :=
  match matchYear r with
  | none => none
  | some (y, r) =>
    match skipWs1 r with
    | none => none
    | some r =>
      match matchCaseInsens "at".data r with
      | none => none
      | some r =>
        match skipWs1 r with
        | none => none
        | some r => parseDateStage3 y m d r

def parseDateStage1 (m : Nat) (r : List Char) : Option Nat :=
  match matchDay r with
  | none => none
  | some (d, r) =>
    match matchLit ',' r with
    | none => none
    | some r =>
      match skipWs1 r with
      | none => none
      | some r => parseDateStage2 m d r

def parseDate (s : String) : Option Nat :=
  match matchMonth s.data with
  | none => none
  | some (m, r) =>
    match skipWs1 r with
    | none => none
    | some r => parseDateStage1 m r

/-! ### Content extraction: posts and ordering -/

/-- One post as built by `extract_posts_html` (media rendering omitted). -/
structure Post where
  dateObj : Option Nat
  author : String
  date : String
  body : String
deriving DecidableEq

/-- One raw message block: the `data-lb-caption-desc` attribute of a
`div.message-userContent` and the text of its `bbWrapper` sibling, as the
BeautifulSoup pass surfaces them. -/
structure RawBlock where
  desc : String
  body : String
deriving DecidableEq

/-- The per-block body of `extract_posts_html`:

```
author = "Unknown user"; date = "Unknown date"; date_obj = None
if '·' in desc:
    parts = desc.split('·')
    if len(parts) >= 2:
        author = clean_text(parts[0]); date = clean_text(parts[1])
        date_obj = parse_date(date)
```
-/
def mkPost (b : RawBlock) : Post :=
  if b.desc.data.contains '·' && decide (2 ≤ (splitOnChar '·' b.desc.data).length) then
    let author := cleanText ⟨(splitOnChar '·' b.desc.data).getD 0 []⟩
    let date := cleanText ⟨(splitOnChar '·' b.desc.data).getD 1 []⟩
    { dateObj := parseDate date, author := author, date := date, body := cleanText b.body }
  else
    { dateObj := none, author := "Unknown user", date := "Unknown date",
      body := cleanText b.body }

/-- The sort key order of
`posts.sort(key=lambda x: (x['date_obj'] is None, x['date_obj']))`:
parsed timestamps ascending, `None` after everything parsed. -/
def keyLE : Option Nat → Option Nat → Bool
  | none, none => true
  | none, some _ => false
  | some _, none => true
  | some a, some b => a ≤ b

/-- Stable insertion: the new element goes after every element whose key is
`≤` its own.  A stable sort's output is unique, so this models Python's
stable `list.sort`. -/
def insertPost (p : Post) : List Post → List Post
  | [] => [p]
  | q :: qs => if keyLE q.dateObj p.dateObj then q :: insertPost p qs else p :: q :: qs

/-- Stable sort of the posts by `(date_obj is None, date_obj)`. -/
def sortPosts (l : List Post) : List Post := l.foldl (fun acc p => insertPost p acc) []

/-- `extract_posts_html`: one post per message block, then the stable sort. -/
def extractPostsHtml (blocks : List RawBlock) : List Post :=
  sortPosts (blocks.map mkPost)

/-- One post row of the raw-vBulletin branch of `_parse_single_html`
(body/media extraction omitted — not needed for the ordering claim). -/
structure RPost where
  index : Nat
  author : String
  date : String
  isOriginal : Bool
deriving DecidableEq

/-- One indexed block of the raw-vBulletin branch of `_parse_single_html`. -/
def parseSingleBlock (ib : Nat × RawBlock) : RPost :=
  if ib.2.desc.data.contains '·' && decide (2 ≤ (splitOnChar '·' ib.2.desc.data).length) then
    { index := ib.1, author := cleanText ⟨(splitOnChar '·' ib.2.desc.data).getD 0 []⟩,
      date := cleanText ⟨(splitOnChar '·' ib.2.desc.data).getD 1 []⟩,
      isOriginal := ib.1 = 0 }
  else
    { index := ib.1, author := "Unknown Scribe", date := "Date unknown",
      isOriginal := ib.1 = 0 }

/-- The raw-vBulletin branch of `_parse_single_html`: posts are emitted in
document order with `index = block_idx` and `is_original = (block_idx == 0)`;
no sorting is applied. -/
def parseSingleHtmlPosts (blocks : List RawBlock) : List RPost :=
  blocks.enum.map parseSingleBlock

/-! ### Ordering lemmas for the post sort -/

theorem keyLE_refl (a : Option Nat) : keyLE a a = true := by
  cases a <;> simp [keyLE]

theorem keyLE_total (a b : Option Nat) : keyLE a b = true ∨ keyLE b a = true := by
  cases a <;> cases b <;> simp [keyLE] <;> omega

theorem keyLE_trans {a b c : Option Nat} (h1 : keyLE a b = true) (h2 : keyLE b c = true) :
    keyLE a c = true := by
  cases a <;> cases b <;> cases c <;> simp [keyLE] at * <;> omega

theorem mem_insertPost {x p : Post} {l : List Post} :
    x ∈ insertPost p l ↔ x = p ∨ x ∈ l := by
  induction l with
  | nil => simp [insertPost]
  | cons q qs ih =>
    rw [insertPost]
    by_cases hq : (keyLE q.dateObj p.dateObj : Bool)
    · simp only [hq, if_true, List.mem_cons, ih]
      tauto
    · simp only [hq, Bool.false_eq_true, if_false, List.mem_cons]

theorem insertPost_pairwise {p : Post} {l : List Post}
    (h : l.Pairwise (fun a b => keyLE a.dateObj b.dateObj = true)) :
    (insertPost p l).Pairwise (fun a b => keyLE a.dateObj b.dateObj = true) := by
  induction l with
  | nil => simp [insertPost]
  | cons q qs ih =>
    rw [insertPost]
    rw [List.pairwise_cons] at h
    by_cases hq : (keyLE q.dateObj p.dateObj : Bool)
    · simp only [hq, if_true]
      rw [List.pairwise_cons]
      refine ⟨?_, ih h.2⟩
      intro x hx
      rcases mem_insertPost.mp hx with rfl | hx'
      · exact hq
      · exact h.1 x hx'
    · simp only [hq, Bool.false_eq_true, if_false]
      rw [List.pairwise_cons]
      have hpq : keyLE p.dateObj q.dateObj = true := by
        rcases keyLE_total q.dateObj p.dateObj with ht | ht
        · exact absurd ht hq
        · exact ht
      refine ⟨?_, List.pairwise_cons.mpr h⟩
      intro x hx
      rcases List.mem_cons.mp hx with rfl | hx'
      · exact hpq
      · exact keyLE_trans hpq (h.1 x hx')

theorem insertPost_perm (p : Post) (l : List Post) :
    (insertPost p l).Perm (p :: l) := by
  induction l with
  | nil => simp [insertPost]
  | cons q qs ih =>
    rw [insertPost]
    by_cases hq : (keyLE q.dateObj p.dateObj : Bool)
    · simp only [hq, if_true]
      exact (ih.cons q).trans (List.Perm.swap p q qs)
    · simp [hq]

theorem foldl_insert_perm (l acc : List Post) :
    (l.foldl (fun acc p => insertPost p acc) acc).Perm (acc ++ l) := by
  induction l generalizing acc with
  | nil => simp
  | cons p rest ih =>
    rw [List.foldl_cons]
    refine (ih (insertPost p acc)).trans ?_
    refine (((insertPost_perm p acc).append_right rest)).trans ?_
    exact (List.perm_middle).symm

theorem foldl_insert_pairwise (l : List Post) :
    ∀ acc, acc.Pairwise (fun a b => keyLE a.dateObj b.dateObj = true) →
      (l.foldl (fun acc p => insertPost p acc) acc).Pairwise
        (fun a b => keyLE a.dateObj b.dateObj = true) := by
  induction l with
  | nil => intro acc h; exact h
  | cons p rest ih =>
    intro acc h
    rw [List.foldl_cons]
    exact ih (insertPost p acc) (insertPost_pairwise h)

theorem filter_insertPost (p : Post) (k : Option Nat) {acc : List Post}
    (hs : acc.Pairwise (fun a b => keyLE a.dateObj b.dateObj = true)) :
    (insertPost p acc).filter (fun q => q.dateObj == k) =
      if p.dateObj = k then acc.filter (fun q => q.dateObj == k) ++ [p]
      else acc.filter (fun q => q.dateObj == k) := by
  induction acc with
  | nil =>
    by_cases hp : p.dateObj = k
    · simp [insertPost, hp]
    · simp [insertPost, List.filter_cons, hp]
  | cons q qs ih =>
    rw [List.pairwise_cons] at hs
    rw [insertPost]
    by_cases hq : (keyLE q.dateObj p.dateObj : Bool)
    · simp only [hq, if_true]
      rw [List.filter_cons, List.filter_cons]
      by_cases hqk : (q.dateObj == k)
      · simp only [hqk, cond_true]
        rw [ih hs.2]
        by_cases hp : p.dateObj = k
        · simp [hp]
        · simp [hp]
      · simp only [hqk, cond_false]
        exact ih hs.2
    · simp only [hq, Bool.false_eq_true, if_false]
      by_cases hp : p.dateObj = k
      · simp only [hp, if_true]
        have hempty : (q :: qs).filter (fun x => x.dateObj == k) = [] := by
          rw [List.filter_eq_nil_iff]
          intro x hx
          simp only [beq_iff_eq]
          intro hxk
          have hkx : keyLE x.dateObj p.dateObj = true := by
            rw [hxk, ← hp]
            exact keyLE_refl _
          rcases List.mem_cons.mp hx with rfl | hx'
          · exact hq hkx
          · exact hq (keyLE_trans (hs.1 x hx') hkx)
        rw [List.filter_cons]
        simp only [hp, beq_self_eq_true, cond_true, hempty]
        simp
      · rw [List.filter_cons]
        have : (p.dateObj == k) = false := by
          rw [beq_eq_false_iff_ne]
          exact hp
        simp [this, hp]

theorem foldl_insert_filter (k : Option Nat) (l : List Post) :
    ∀ acc, acc.Pairwise (fun a b => keyLE a.dateObj b.dateObj = true) →
      (l.foldl (fun acc p => insertPost p acc) acc).filter (fun q => q.dateObj == k) =
        acc.filter (fun q => q.dateObj == k) ++ l.filter (fun q => q.dateObj == k) := by
  induction l with
  | nil => intro acc _; simp
  | cons p rest ih =>
    intro acc h
    rw [List.foldl_cons, ih (insertPost p acc) (insertPost_pairwise h),
      filter_insertPost p k h, List.filter_cons]
    by_cases hp : p.dateObj = k
    · have hb : (p.dateObj == k) = true := beq_iff_eq.mpr hp
      simp [hp, hb]
    · have hb : (p.dateObj == k) = false := beq_eq_false_iff_ne.mpr hp
      simp [hp, hb]

theorem enumFrom_map_parseSingleBlock_index (blocks : List RawBlock) :
    ∀ n, ((List.enumFrom n blocks).map parseSingleBlock).map (fun p => p.index) =
      List.range' n blocks.length := by
  induction blocks with
  | nil => intro n; rfl
  | cons b bs ih =>
    intro n
    have hidx : (parseSingleBlock (n, b)).index = n := by
      rw [parseSingleBlock]
      split <;> rfl
    simp only [List.enumFrom, List.map_cons, hidx, List.length_cons, List.range']
    rw [ih (n + 1)]

/-! ### Claim C8: post ordering -/

/-- Counterexample to C8 as stated: `_parse_single_html` (one of the two
content-extraction passes the claim covers) applies no sort — its output
stays in document order.  A document whose first post carries a later
parseable date than its second violates \"ordered by parsed timestamp
ascending\". -/
theorem C8_counterexample :
    (parseSingleHtmlPosts
      [⟨"Alice · Feb 01, 2020 at 10:00 AM", "x"⟩,
       ⟨"Bob · Jan 01, 2020 at 10:00 AM", "y"⟩]).map (fun p => parseDate p.date) =
      [some 1210155000, some 1210108920] ∧
    keyLE (some 1210155000) (some 1210108920) = false := by
  constructor <;> decide

/-- C8 (amended): `extract_posts_html` sorts its posts by parsed timestamp
ascending with every unparsable-timestamp post after all parsed ones, the
output is a permutation of the per-block posts, and document order is
preserved among posts whose sort key is equal (stability); the restoration
pass `_parse_single_html`, however, applies no sort and emits posts in
document order (`index = block position`). -/
theorem C8_post_ordering (blocks : List RawBlock) (k : Option Nat) :
    (extractPostsHtml blocks).Pairwise
        (fun p q => keyLE p.dateObj q.dateObj = true) ∧
    (extractPostsHtml blocks).Perm (blocks.map mkPost) ∧
    (extractPostsHtml blocks).filter (fun p => p.dateObj == k) =
      (blocks.map mkPost).filter (fun p => p.dateObj == k) ∧
    (extractPostsHtml blocks).Pairwise
        (fun p q => p.dateObj = none → q.dateObj = none) ∧
    (parseSingleHtmlPosts blocks).map (fun p => p.index) =
      List.range blocks.length := by
  have hpair : (extractPostsHtml blocks).Pairwise
      (fun p q => keyLE p.dateObj q.dateObj = true) :=
    foldl_insert_pairwise (blocks.map mkPost) [] (by simp)
  refine ⟨hpair, ?_, ?_, ?_, ?_⟩
  · have := foldl_insert_perm (blocks.map mkPost) []
    simpa [extractPostsHtml, sortPosts] using this
  · have := foldl_insert_filter k (blocks.map mkPost) [] (by simp)
    simpa [extractPostsHtml, sortPosts] using this
  · refine hpair.imp ?_
    intro a b hab hna
    cases hb : b.dateObj with
    | none => rfl
    | some v =>
      rw [hna, hb] at hab
      simp [keyLE] at hab
  · show ((List.enumFrom 0 blocks).map parseSingleBlock).map (fun p => p.index) =
      List.range blocks.length
    rw [enumFrom_map_parseSingleBlock_index blocks 0, List.range_eq_range']

/-! ### `_html_to_bbcode` and `_clean_bbcode` -/

/-- A parsed HTML node as BeautifulSoup presents it: a `NavigableString`
or a `Tag` with a name, attributes and children. -/
inductive HNode where
  | text (s : String)
  | elem (tag : String) (attrs : List (String × String)) (children : List HNode)

/-- Python `str.lower()`, character by character. -/
def strToLower (s : String) : String := ⟨s.data.map Char.toLower⟩

/-- The `{"h1":"6","h2":"5","h3":"4","h4":"3","h5":"2","h6":"1"}.get(tag,"4")`
size table. -/
def sizeFor (tag : String) : String :=
  if tag = "h1" then "6" else if tag = "h2" then "5" else if tag = "h3" then "4"
  else if tag = "h4" then "3" else if tag = "h5" then "2" else if tag = "h6" then "1"
  else "4"

mutual

/-- `_html_to_bbcode`: recursively walk the element tree producing BBCode,
branch for branch as in the source (a `NavigableString` contributes its
text; `inner` is the concatenation of the converted children). -/
def htmlToBbcode : HNode → String
  | .text s => s
  | .elem tag0 attrs children =>
    let tag := strToLower tag0
    let inner := htmlListToBbcode children
    if tag = "b" || tag = "strong" then "[B]" ++ inner ++ "[/B]"
    else if tag = "i" || tag = "em" then "[I]" ++ inner ++ "[/I]"
    else if tag = "u" then "[U]" ++ inner ++ "[/U]"
    else if tag = "s" || tag = "strike" || tag = "del" then "[S]" ++ inner ++ "[/S]"
    else if tag = "a" then
      let href := (attrs.lookup "href").getD ""
      if href ≠ "" then "[URL=" ++ href ++ "]" ++ inner ++ "[/URL]" else inner
    else if tag = "img" then
      let src := (attrs.lookup "src").getD ""
      if "data:".data.isPrefixOf src.data then "[IMG]<embedded>[/IMG]"
      else "[IMG]" ++ src ++ "[/IMG]"
    else if tag = "blockquote" then "[QUOTE]" ++ inner ++ "[/QUOTE]"
    else if tag = "code" || tag = "pre" then "[CODE]" ++ inner ++ "[/CODE]"
    else if tag = "h1" || tag = "h2" || tag = "h3" || tag = "h4" || tag = "h5" ||
        tag = "h6" then
      "[SIZE=" ++ sizeFor tag ++ "][B]" ++ inner ++ "[/B][/SIZE]\n"
    else if tag = "br" then "\n"
    else if tag = "p" then (⟨pyStripList inner.data⟩ : String) ++ "\n\n"
    else if tag = "ul" || tag = "ol" then "[LIST]\n" ++ inner ++ "[/LIST]\n"
    else if tag = "li" then "[*]" ++ (⟨pyStripList inner.data⟩ : String) ++ "\n"
    else if tag = "div" || tag = "span" || tag = "section" || tag = "article" then inner
    else if tag = "script" || tag = "style" || tag = "head" || tag = "meta" ||
        tag = "link" || tag = "noscript" then ""
    else inner

/-- `"".join(_html_to_bbcode(c) for c in element.children)`. -/
def htmlListToBbcode : List HNode → String
  | [] => ""
  | c :: cs => htmlToBbcode c ++ htmlListToBbcode cs

end

/-- Core of `re.sub(r'\n{3,}', '\n\n', text)`: emit at most two newlines
per maximal newline run; `cnt` counts the newlines already seen in the
current run. -/
def collapseRun : List Char → Nat → List Char
  | [], _ => []
  | c :: rest, cnt =>
    if c = '\n' then
      if cnt < 2 then '\n' :: collapseRun rest (cnt + 1)
      else collapseRun rest (cnt + 1)
    else c :: collapseRun rest 0

/-- `_clean_bbcode`: `re.sub(r'\n{3,}', '\n\n', text).strip()`. -/
def cleanBbcode (s : String) : String := ⟨pyStripList (collapseRun s.data 0)⟩

/-- No run of three consecutive newlines occurs anywhere. -/
def noTripleNl (l : List Char) : Prop :=
  ∀ l1 l2, l ≠ l1 ++ '\n' :: '\n' :: '\n' :: l2

/-- Length of the leading newline run. -/
def countLeadNl (l : List Char) : Nat := (l.takeWhile (fun c => c = '\n')).length

theorem countLeadNl_cons_nl (x : List Char) :
    countLeadNl ('\n' :: x) = countLeadNl x + 1 := by
  simp [countLeadNl, List.takeWhile_cons]

theorem countLeadNl_cons_of_ne {c : Char} (hc : c ≠ '\n') (x : List Char) :
    countLeadNl (c :: x) = 0 := by
  have hcb : (decide (c = '\n')) = false := by simpa using hc
  simp [countLeadNl, List.takeWhile_cons, hcb]

theorem countLeadNl_collapseRun (l : List Char) :
    ∀ cnt, countLeadNl (collapseRun l cnt) ≤ 2 - cnt := by
  induction l with
  | nil => intro cnt; simp [collapseRun, countLeadNl]
  | cons c rest ih =>
    intro cnt
    rw [collapseRun]
    by_cases hc : c = '\n'
    · simp only [hc, if_true]
      by_cases h2 : cnt < 2
      · simp only [h2, if_true]
        rw [countLeadNl_cons_nl]
        have := ih (cnt + 1)
        omega
      · simp only [h2, if_false]
        have := ih (cnt + 1)
        omega
    · simp only [hc, if_false]
      rw [countLeadNl_cons_of_ne hc]
      omega

theorem noTripleNl_nil : noTripleNl [] := by
  intro l1 l2 h
  cases l1 <;> simp at h

theorem noTripleNl_cons_of_ne {c : Char} {out : List Char} (hc : c ≠ '\n')
    (h : noTripleNl out) : noTripleNl (c :: out) := by
  intro l1 l2 he
  cases l1 with
  | nil =>
    simp at he
    exact hc he.1
  | cons a l1 =>
    simp at he
    exact h l1 l2 he.2

theorem countLeadNl_ge_two (l2 : List Char) :
    2 ≤ countLeadNl ('\n' :: '\n' :: l2) := by
  rw [countLeadNl_cons_nl, countLeadNl_cons_nl]
  omega

theorem noTripleNl_cons_nl {out : List Char} (hlead : countLeadNl out ≤ 1)
    (h : noTripleNl out) : noTripleNl ('\n' :: out) := by
  intro l1 l2 he
  cases l1 with
  | nil =>
    simp at he
    rw [he] at hlead
    have := countLeadNl_ge_two l2
    omega
  | cons a l1 =>
    simp at he
    exact h l1 l2 he.2

theorem collapseRun_noTriple (l : List Char) : ∀ cnt, noTripleNl (collapseRun l cnt) := by
  induction l with
  | nil => intro cnt; exact noTripleNl_nil
  | cons c rest ih =>
    intro cnt
    rw [collapseRun]
    by_cases hc : c = '\n'
    · simp only [hc, if_true]
      by_cases h2 : cnt < 2
      · simp only [h2, if_true]
        refine noTripleNl_cons_nl ?_ (ih (cnt + 1))
        have := countLeadNl_collapseRun rest (cnt + 1)
        omega

      · simp only [h2, if_false]
        exact ih (cnt + 1)
    · simp only [hc, if_false]
      exact noTripleNl_cons_of_ne hc (ih 0)

theorem noTripleNl_append_right {m l2 : List Char} (h : noTripleNl (m ++ l2)) :
    noTripleNl m := by
  intro m1 m2 he
  exact h m1 (m2 ++ l2) (by rw [he]; simp)

theorem noTripleNl_append_left {l1 m : List Char} (h : noTripleNl (l1 ++ m)) :
    noTripleNl m := by
  induction l1 with
  | nil => exact h
  | cons a l1 ih =>
    refine ih ?_
    intro m1 m2 he
    exact h (a :: m1) m2 (by simp [he])

theorem pyStripList_infix (l : List Char) :
    ∃ l1 l2, l = l1 ++ pyStripList l ++ l2 := by
  refine ⟨l.takeWhile pyWs,
    (((l.dropWhile pyWs).reverse.takeWhile pyWs)).reverse, ?_⟩
  have h2 : l.dropWhile pyWs =
      pyStripList l ++ ((l.dropWhile pyWs).reverse.takeWhile pyWs).reverse := by
    have h3 : (l.dropWhile pyWs).reverse =
        (l.dropWhile pyWs).reverse.takeWhile pyWs ++
          (l.dropWhile pyWs).reverse.dropWhile pyWs :=
      (List.takeWhile_append_dropWhile (p := pyWs) (l := (l.dropWhile pyWs).reverse)).symm
    have h4 := congrArg List.reverse h3
    rw [List.reverse_reverse, List.reverse_append] at h4
    exact h4
  rw [List.append_assoc, ← h2, List.takeWhile_append_dropWhile]

theorem noTripleNl_pyStripList {l : List Char} (h : noTripleNl l) :
    noTripleNl (pyStripList l) := by
  obtain ⟨l1, l2, he⟩ := pyStripList_infix l
  rw [he, List.append_assoc] at h
  exact noTripleNl_append_right (noTripleNl_append_left h)

/-! ### Claim C9: recursive markup conversion -/

/-- C9: `_html_to_bbcode` maps `b`/`strong` to `[B]`, `i`/`em` to `[I]`,
`u` to `[U]`, `s`/`strike`/`del` to `[S]`, anchors with an `href` to
`[URL=href]`, images to `[IMG]src[/IMG]` with data-URI sources becoming
`[IMG]<embedded>[/IMG]`, `blockquote` to `[QUOTE]`, `code`/`pre` to
`[CODE]`, headings `h1`–`h6` to `[SIZE=n][B]…[/B][/SIZE]`, `ul`/`ol`/`li`
to `[LIST]`/`[*]`, emits nothing for
`script`/`style`/`head`/`meta`/`link`/`noscript` (their content dropped),
passes every unknown element through as the concatenation of its converted
children, and `_clean_bbcode` output never contains a run of three or more
newlines. -/
theorem C9_html_to_bbcode :
    (∀ s, htmlToBbcode (.text s) = s) ∧
    (∀ t ∈ (["b", "strong"] : List String), ∀ attrs cs,
        htmlToBbcode (.elem t attrs cs) = "[B]" ++ htmlListToBbcode cs ++ "[/B]") ∧
    (∀ t ∈ (["i", "em"] : List String), ∀ attrs cs,
        htmlToBbcode (.elem t attrs cs) = "[I]" ++ htmlListToBbcode cs ++ "[/I]") ∧
    (∀ attrs cs, htmlToBbcode (.elem "u" attrs cs) =
        "[U]" ++ htmlListToBbcode cs ++ "[/U]") ∧
    (∀ t ∈ (["s", "strike", "del"] : List String), ∀ attrs cs,
        htmlToBbcode (.elem t attrs cs) = "[S]" ++ htmlListToBbcode cs ++ "[/S]") ∧
    (∀ attrs cs href, (attrs.lookup "href").getD "" = href → href ≠ "" →
        htmlToBbcode (.elem "a" attrs cs) =
          "[URL=" ++ href ++ "]" ++ htmlListToBbcode cs ++ "[/URL]") ∧
    (∀ attrs cs src, (attrs.lookup "src").getD "" = src →
        "data:".data.isPrefixOf src.data = true →
        htmlToBbcode (.elem "img" attrs cs) = "[IMG]<embedded>[/IMG]") ∧
    (∀ attrs cs src, (attrs.lookup "src").getD "" = src →
        "data:".data.isPrefixOf src.data = false →
        htmlToBbcode (.elem "img" attrs cs) = "[IMG]" ++ src ++ "[/IMG]") ∧
    (∀ attrs cs, htmlToBbcode (.elem "blockquote" attrs cs) =
        "[QUOTE]" ++ htmlListToBbcode cs ++ "[/QUOTE]") ∧
    (∀ t ∈ (["code", "pre"] : List String), ∀ attrs cs,
        htmlToBbcode (.elem t attrs cs) = "[CODE]" ++ htmlListToBbcode cs ++ "[/CODE]") ∧
    (∀ attrs cs, htmlToBbcode (.elem "h1" attrs cs) =
        "[SIZE=6][B]" ++ htmlListToBbcode cs ++ "[/B][/SIZE]\n") ∧
    (∀ attrs cs, htmlToBbcode (.elem "h2" attrs cs) =
        "[SIZE=5][B]" ++ htmlListToBbcode cs ++ "[/B][/SIZE]\n") ∧
    (∀ attrs cs, htmlToBbcode (.elem "h3" attrs cs) =
        "[SIZE=4][B]" ++ htmlListToBbcode cs ++ "[/B][/SIZE]\n") ∧
    (∀ attrs cs, htmlToBbcode (.elem "h4" attrs cs) =
        "[SIZE=3][B]" ++ htmlListToBbcode cs ++ "[/B][/SIZE]\n") ∧
    (∀ attrs cs, htmlToBbcode (.elem "h5" attrs cs) =
        "[SIZE=2][B]" ++ htmlListToBbcode cs ++ "[/B][/SIZE]\n") ∧
    (∀ attrs cs, htmlToBbcode (.elem "h6" attrs cs) =
        "[SIZE=1][B]" ++ htmlListToBbcode cs ++ "[/B][/SIZE]\n") ∧
    (∀ t ∈ (["ul", "ol"] : List String), ∀ attrs cs,
        htmlToBbcode (.elem t attrs cs) = "[LIST]\n" ++ htmlListToBbcode cs ++ "[/LIST]\n") ∧
    (∀ attrs cs, htmlToBbcode (.elem "li" attrs cs) =
        "[*]" ++ (⟨pyStripList (htmlListToBbcode cs).data⟩ : String) ++ "\n") ∧
    (∀ t ∈ (["script", "style", "head", "meta", "link", "noscript"] : List String),
        ∀ attrs cs, htmlToBbcode (.elem t attrs cs) = "") ∧
    (∀ tag attrs cs, strToLower tag ∉
        (["b", "strong", "i", "em", "u", "s", "strike", "del", "a", "img",
          "blockquote", "code", "pre", "h1", "h2", "h3", "h4", "h5", "h6", "br",
          "p", "ul", "ol", "li", "div", "span", "section", "article", "script",
          "style", "head", "meta", "link", "noscript"] : List String) →
        htmlToBbcode (.elem tag attrs cs) = htmlListToBbcode cs) ∧
    (∀ s, noTripleNl (cleanBbcode s).data) := by
  refine ⟨fun s => rfl, ?_, ?_, ?_, ?_, ?_, ?_, ?_, ?_, ?_, ?_, ?_, ?_, ?_, ?_, ?_,
    ?_, ?_, ?_, ?_, ?_⟩
  · intro t ht attrs cs
    simp only [List.mem_cons, List.not_mem_nil, or_false] at ht
    rcases ht with rfl | rfl
    · rw [htmlToBbcode]; simp [show strToLower "b" = "b" from rfl]
    · rw [htmlToBbcode]; simp [show strToLower "strong" = "strong" from rfl]
  · intro t ht attrs cs
    simp only [List.mem_cons, List.not_mem_nil, or_false] at ht
    rcases ht with rfl | rfl
    · rw [htmlToBbcode]; simp [show strToLower "i" = "i" from rfl]
    · rw [htmlToBbcode]; simp [show strToLower "em" = "em" from rfl]
  · intro attrs cs
    rw [htmlToBbcode]; simp [show strToLower "u" = "u" from rfl]
  · intro t ht attrs cs
    simp only [List.mem_cons, List.not_mem_nil, or_false] at ht
    rcases ht with rfl | rfl | rfl
    · rw [htmlToBbcode]; simp [show strToLower "s" = "s" from rfl]
    · rw [htmlToBbcode]; simp [show strToLower "strike" = "strike" from rfl]
    · rw [htmlToBbcode]; simp [show strToLower "del" = "del" from rfl]
  · intro attrs cs href h1 h2
    rw [htmlToBbcode]
    simp [show strToLower "a" = "a" from rfl, h1, h2]
  · intro attrs cs src h1 h2
    rw [htmlToBbcode]
    simp [show strToLower "img" = "img" from rfl, h1, h2]
  · intro attrs cs src h1 h2
    rw [htmlToBbcode]
    simp [show strToLower "img" = "img" from rfl, h1, h2]
  · intro attrs cs
    rw [htmlToBbcode]
    simp [show strToLower "blockquote" = "blockquote" from rfl]
  · intro t ht attrs cs
    simp only [List.mem_cons, List.not_mem_nil, or_false] at ht
    rcases ht with rfl | rfl
    · rw [htmlToBbcode]; simp [show strToLower "code" = "code" from rfl]
    · rw [htmlToBbcode]; simp [show strToLower "pre" = "pre" from rfl]
  · intro attrs cs
    rw [htmlToBbcode]; simp [show strToLower "h1" = "h1" from rfl, sizeFor]
  · intro attrs cs
    rw [htmlToBbcode]; simp [show strToLower "h2" = "h2" from rfl, sizeFor]
  · intro attrs cs
    rw [htmlToBbcode]; simp [show strToLower "h3" = "h3" from rfl, sizeFor]
  · intro attrs cs
    rw [htmlToBbcode]; simp [show strToLower "h4" = "h4" from rfl, sizeFor]
  · intro attrs cs
    rw [htmlToBbcode]; simp [show strToLower "h5" = "h5" from rfl, sizeFor]
  · intro attrs cs
    rw [htmlToBbcode]; simp [show strToLower "h6" = "h6" from rfl, sizeFor]
  · intro t ht attrs cs
    simp only [List.mem_cons, List.not_mem_nil, or_false] at ht
    rcases ht with rfl | rfl
    · rw [htmlToBbcode]; simp [show strToLower "ul" = "ul" from rfl]
    · rw [htmlToBbcode]; simp [show strToLower "ol" = "ol" from rfl]
  · intro attrs cs
    rw [htmlToBbcode]; simp [show strToLower "li" = "li" from rfl]
  · intro t ht attrs cs
    simp only [List.mem_cons, List.not_mem_nil, or_false] at ht
    rcases ht with rfl | rfl | rfl | rfl | rfl | rfl
    · rw [htmlToBbcode]; simp [show strToLower "script" = "script" from rfl]
    · rw [htmlToBbcode]; simp [show strToLower "style" = "style" from rfl]
    · rw [htmlToBbcode]; simp [show strToLower "head" = "head" from rfl]
    · rw [htmlToBbcode]; simp [show strToLower "meta" = "meta" from rfl]
    · rw [htmlToBbcode]; simp [show strToLower "link" = "link" from rfl]
    · rw [htmlToBbcode]; simp [show strToLower "noscript" = "noscript" from rfl]
  · intro tag attrs cs h
    simp only [List.mem_cons, List.not_mem_nil, or_false, not_or] at h
    obtain ⟨n01, n02, n03, n04, n05, n06, n07, n08, n09, n10, n11, n12, n13, n14,
      n15, n16, n17, n18, n19, n20, n21, n22, n23, n24, n25, n26, n27, n28, n29,
      n30, n31, n32, n33, n34⟩ := h
    rw [htmlToBbcode]
    simp [n01, n02, n03, n04, n05, n06, n07, n08, n09, n10, n11, n12, n13, n14,
      n15, n16, n17, n18, n19, n20, n21, n22, n23, n24, n25, n26, n27, n28, n29,
      n30, n31, n32, n33, n34]
  · intro s
    exact noTripleNl_pyStripList (collapseRun_noTriple s.data 0)

theorem C9_witness :
    htmlToBbcode (.elem "a" [("href", "http://x/y")] [.text "t"]) =
      "[URL=" ++ "http://x/y" ++ "]" ++ htmlListToBbcode [.text "t"] ++ "[/URL]" ∧
    htmlToBbcode (.elem "img" [("src", "data:image/png;base64,Zm9v")] []) =
      "[IMG]<embedded>[/IMG]" ∧
    htmlToBbcode (.elem "img" [("src", "http://m/i.png")] []) =
      "[IMG]" ++ "http://m/i.png" ++ "[/IMG]" ∧
    htmlToBbcode (.elem "table" [] [.text "cell"]) = htmlListToBbcode [.text "cell"] ∧
    htmlToBbcode (.elem "script" [] [.text "alert()"]) = "" := by
  refine ⟨?_, ?_, ?_, ?_, ?_⟩
  · exact C9_html_to_bbcode.2.2.2.2.2.1 [("href", "http://x/y")] [.text "t"]
      "http://x/y" rfl (by decide)
  · exact C9_html_to_bbcode.2.2.2.2.2.2.1 [("src", "data:image/png;base64,Zm9v")] []
      "data:image/png;base64,Zm9v" rfl (by decide)
  · exact C9_html_to_bbcode.2.2.2.2.2.2.2.1 [("src", "http://m/i.png")] []
      "http://m/i.png" rfl (by decide)
  · exact C9_html_to_bbcode.2.2.2.2.2.2.2.2.2.2.2.2.2.2.2.2.2.2.2.1 "table" []
      [.text "cell"] (by decide)
  · exact C9_html_to_bbcode.2.2.2.2.2.2.2.2.2.2.2.2.2.2.2.2.2.2.1 "script"
      (by decide) [] [.text "alert()"]

/-! ### The archive crawler (`VBulletinBackup.download_thread` / `run_backup`) -/

/-- `safe_filename(name)` with the default `maxlen=80`. -/
def safeFilenameStr (s : String) : String := ⟨safeFilenameList s.data 80⟩

/-- A `ThreadRecord` in `ArchiveMetadata`. -/
structure ThreadRecord where
  title : String
  url : String
  pages : Nat
  downloaded_at : Nat
deriving DecidableEq

/-- `ArchiveMetadata` (`backup_metadata.json`); timestamps are abstract
clock values. -/
structure Metadata where
  threads : List (String × ThreadRecord)
  last_backup : Option Nat
  total_threads : Nat
  completed_threads : Nat
deriving DecidableEq

/-- State threaded through a backup run: the output directory (path →
file text), the metadata record, and the log of page URLs fetched. -/
structure CrawlState where
  fs : List (String × String)
  meta : Metadata
  fetchLog : List String
deriving DecidableEq

/-- Python dict assignment `d[k] = v`: replace in place or append. -/
def dictInsert (k : String) (v : ThreadRecord) :
    List (String × ThreadRecord) → List (String × ThreadRecord)
  | [] => [(k, v)]
  | p :: rest => if p.1 = k then (k, v) :: rest else p :: dictInsert k v rest

/-- `f"thread_{thread_id}_{stitle}__page{page_num}.html"`. -/
def pageFileName (tid stitle : String) (pageNum : Nat) : String :=
  "thread_" ++ tid ++ "_" ++ stitle ++ "__page" ++ natToDec pageNum ++ ".html"

/-- `enumerate(l, n)`. -/
def enumFrom1 {α : Type} : Nat → List α → List (Nat × α)
  | _, [] => []
  | n, a :: as => (n, a) :: enumFrom1 (n + 1) as

/-- Accumulator of the page loop in `download_thread`. -/
structure PageLoop where
  fs : List (String × String)
  fetchLog : List String
  downloaded : Nat
  prevSize : Option Nat
deriving DecidableEq

/-- The page loop of `download_thread` (media download disabled):

```
for page_num, page_url in enumerate(thread_pages, 1):
    if self._stop_event.is_set(): break
    filename = f"thread_{thread_id}_{stitle}__page{page_num}.html"
    if os.path.exists(filepath):
        downloaded_pages += 1
        previous_size = os.path.getsize(filepath)
        continue
    page_content = self.get_page(page_url)
    if not page_content: continue
    current_size = len(page_content.encode('utf-8'))
    if previous_size is not None and current_size == previous_size: break
    ... write file ...
    downloaded_pages += 1; previous_size = current_size
```
Each iteration advances the clock by one; file sizes are UTF-8 byte
counts of the stored text. -/
def downloadPages (stop : Nat → Bool) (fetch : String → Option String)
    (tid stitle : String) : List (Nat × String) → PageLoop → Nat → PageLoop × Nat
  | [], acc, tick => (acc, tick)
  | (pageNum, pageUrl) :: rest, acc, tick =>
    if stop tick then (acc, tick)
    else
      match acc.fs.lookup (pageFileName tid stitle pageNum) with
      | some content =>
        downloadPages stop fetch tid stitle rest
          ⟨acc.fs, acc.fetchLog, acc.downloaded + 1, some content.utf8ByteSize⟩
          (tick + 1)
      | none =>
        match fetch pageUrl with
        | none =>
          downloadPages stop fetch tid stitle rest
            ⟨acc.fs, acc.fetchLog ++ [pageUrl], acc.downloaded, acc.prevSize⟩ (tick + 1)
        | some content =>
          if acc.prevSize = some content.utf8ByteSize then
            (⟨acc.fs, acc.fetchLog ++ [pageUrl], acc.downloaded, acc.prevSize⟩, tick)
          else
            downloadPages stop fetch tid stitle rest
              ⟨acc.fs ++ [(pageFileName tid stitle pageNum, content)],
                acc.fetchLog ++ [pageUrl], acc.downloaded + 1,
                some content.utf8ByteSize⟩ (tick + 1)

/-- `VBulletinBackup.download_thread`.  `getPages` abstracts
`get_thread_pages` (the pagination-control scan of the already-fetched
first page); media download is disabled.  Always writes the unit's
ThreadRecord and returns `True` once the initial fetch succeeded. -/
def downloadThread (stop : Nat → Bool) (fetch : String → Option String)
    (getPages : String → String → List String) (t : ContentUnit) (now : Nat)
    (st : CrawlState) (tick : Nat) : Bool × CrawlState × Nat :=
  if stop tick then (false, st, tick)
  else
    match fetch t.url with
    | none => (false, ⟨st.fs, st.meta, st.fetchLog ++ [t.url]⟩, tick + 1)
    | some html =>
      let r := downloadPages stop fetch t.id (safeFilenameStr t.title)
        (enumFrom1 1 (getPages t.url html))
        ⟨st.fs, st.fetchLog ++ [t.url], 0, none⟩ (tick + 1)
      (true,
        ⟨r.1.fs,
          ⟨dictInsert t.id ⟨t.title, t.url, r.1.downloaded, now⟩ st.meta.threads,
            st.meta.last_backup, st.meta.total_threads, st.meta.completed_threads⟩,
          r.1.fetchLog⟩,
        r.2)

/-- `download_single` inside `run_backup`: one retry after a failed
attempt (the backoff sleep is not modelled). -/
def downloadSingle (stop : Nat → Bool) (fetch : String → Option String)
    (getPages : String → String → List String) (t : ContentUnit) (now : Nat)
    (st : CrawlState) (tick : Nat) : Bool × CrawlState × Nat :=
  let r := downloadThread stop fetch getPages t now st tick
  if r.1 then r
  else downloadThread stop fetch getPages t now r.2.1 r.2.2

/-- The result loop of `run_backup`, serialised in submission order: the
stop flag is checked before each unit's result is taken; a successful unit
bumps `completed_threads` and persists metadata (which stamps
`last_backup`). -/
def runLoop (stop : Nat → Bool) (fetch : String → Option String)
    (getPages : String → String → List String) (now : Nat) :
    List ContentUnit → Nat → CrawlState → Nat → Nat × CrawlState × Nat
  | [], successful, st, tick => (successful, st, tick)
  | t :: ts, successful, st, tick =>
    if stop tick then (successful, st, tick)
    else
      let r := downloadSingle stop fetch getPages t now st tick
      if r.1 then
        runLoop stop fetch getPages now ts (successful + 1)
          ⟨r.2.1.fs,
            ⟨r.2.1.meta.threads, some now, r.2.1.meta.total_threads, successful + 1⟩,
            r.2.1.fetchLog⟩
          (r.2.2 + 1)
      else runLoop stop fetch getPages now ts successful r.2.1 (r.2.2 + 1)

/-- `VBulletinBackup.run_backup`: discover, record `total_threads`, filter
out units already in metadata, run the pool (serialised), and always save
metadata at the end (stamping `last_backup`). -/
def runBackup (stop : Nat → Bool) (fetch : String → Option String)
    (findNums : String → List Nat) (rawLinks : String → List ContentUnit)
    (getPages : String → String → List String) (startPage : Nat) (base : String)
    (now : Nat) (st : CrawlState) (tick : Nat) : Nat × CrawlState :=
  let threads := discoverAllThreads fetch findNums rawLinks startPage base
  if threads.isEmpty then (0, st)
  else
    let st1 : CrawlState :=
      ⟨st.fs,
        ⟨st.meta.threads, st.meta.last_backup, threads.length, st.meta.completed_threads⟩,
        st.fetchLog⟩
    let toDownload := threads.filter fun t => (st1.meta.threads.lookup t.id).isNone
    let r := runLoop stop fetch getPages now toDownload 0 st1 tick
    (r.1,
      ⟨r.2.1.fs,
        ⟨r.2.1.meta.threads, some now, r.2.1.meta.total_threads,
          r.2.1.meta.completed_threads⟩,
        r.2.1.fetchLog⟩)

theorem lookup_append {β : Type} (u : String) (l1 l2 : List (String × β)) :
    (l1 ++ l2).lookup u =
      match l1.lookup u with
      | some v => some v
      | none => l2.lookup u := by
  induction l1 with
  | nil => simp
  | cons p l1 ih =>
    rw [List.cons_append, lookup_cons_eval, lookup_cons_eval]
    by_cases hp : (u == p.1)
    · simp [hp]
    · simp only [hp, Bool.false_eq_true, if_false]
      exact ih

/-! ### Claim C1: idempotence of the second backup run -/

/-- C1: against an unchanged source, a second `run_backup` leaves every
persisted page file byte-identical (the filesystem component is unchanged)
and the metadata record unchanged except for `last_backup`: every unit
whose id is already present in `metadata['threads']` is excluded from the
download set, so nothing is downloaded (`successful = 0`); and a sub-page
whose output file already exists is counted without being re-fetched or
rewritten (the page loop leaves the filesystem and the fetch log untouched
and counts one page per existing file). -/
theorem C1_backup_idempotent (fetch : String → Option String)
    (findNums : String → List Nat) (rawLinks : String → List ContentUnit)
    (getPages : String → String → List String) (startPage : Nat) (base : String)
    (now tick : Nat) (st : CrawlState)
    (h1 : discoverAllThreads fetch findNums rawLinks startPage base ≠ [])
    (h2 : ∀ t ∈ discoverAllThreads fetch findNums rawLinks startPage base,
        ((st.meta.threads.lookup t.id).isSome : Prop))
    (h3 : st.meta.total_threads =
        (discoverAllThreads fetch findNums rawLinks startPage base).length) :
    runBackup noStop fetch findNums rawLinks getPages startPage base now st tick =
      (0, ⟨st.fs, ⟨st.meta.threads, some now, st.meta.total_threads,
        st.meta.completed_threads⟩, st.fetchLog⟩) ∧
    (∀ (tid stitle : String) (pages : List (Nat × String)) (acc : PageLoop) (tk : Nat),
      (∀ p ∈ pages, ((acc.fs.lookup (pageFileName tid stitle p.1)).isSome : Prop)) →
      ((downloadPages noStop fetch tid stitle pages acc tk).1.fs = acc.fs ∧
       (downloadPages noStop fetch tid stitle pages acc tk).1.fetchLog = acc.fetchLog ∧
       (downloadPages noStop fetch tid stitle pages acc tk).1.downloaded =
         acc.downloaded + pages.length)) := by
  constructor
  · have hempty : (discoverAllThreads fetch findNums rawLinks startPage base).isEmpty =
        false := by
      cases hc : (discoverAllThreads fetch findNums rawLinks startPage base).isEmpty
      · rfl
      · exact absurd (List.isEmpty_iff.mp hc) h1
    have hfilter : (discoverAllThreads fetch findNums rawLinks startPage base).filter
        (fun t => (st.meta.threads.lookup t.id).isNone) = [] := by
      rw [List.filter_eq_nil_iff]
      intro t ht
      have hsome := h2 t ht
      cases hx : st.meta.threads.lookup t.id with
      | none => rw [hx] at hsome; simp at hsome
      | some v => simp [hx]
    simp only [runBackup, hempty, Bool.false_eq_true, if_false, hfilter, runLoop]
    rw [h3]
  · intro tid stitle pages
    induction pages with
    | nil =>
      intro acc tk _
      exact ⟨rfl, rfl, by simp [downloadPages]⟩
    | cons p rest ih =>
      intro acc tk h
      obtain ⟨n, u⟩ := p
      have hex := h (n, u) (List.mem_cons_self _ _)
      cases hx : acc.fs.lookup (pageFileName tid stitle n) with
      | none => rw [hx] at hex; simp at hex
      | some c =>
        have hstep : downloadPages noStop fetch tid stitle ((n, u) :: rest) acc tk =
            downloadPages noStop fetch tid stitle rest
              ⟨acc.fs, acc.fetchLog, acc.downloaded + 1, some c.utf8ByteSize⟩ (tk + 1) := by
          simp [downloadPages, noStop, hx]
        rw [hstep]
        have hrec := ih ⟨acc.fs, acc.fetchLog, acc.downloaded + 1, some c.utf8ByteSize⟩
          (tk + 1) (fun q hq => h q (List.mem_cons_of_mem _ hq))
        refine ⟨hrec.1, hrec.2.1, ?_⟩
        rw [hrec.2.2]
        simp only [List.length_cons]
        omega

/-- Concrete oracles and state for the C1 witness: one listing page, one
thread already present in metadata. -/
def fetchW1 : String → Option String := fun u => if u = "http://f" then some "L" else none

/-- Concrete link scan for the C1 witness. -/
def rawLinksW1 : String → List ContentUnit := fun h =>
  if h = "L" then [⟨"7", "http://f/t7", "T7"⟩] else []

/-- Metadata state for the C1 witness: thread 7 already recorded. -/
def stW1 : CrawlState :=
  ⟨[], ⟨[("7", ⟨"T7", "http://f/t7", 1, 0⟩)], some 0, 1, 1⟩, []⟩

theorem C1_witness :
    runBackup noStop fetchW1 (fun _ => []) rawLinksW1 (fun _ _ => []) 1 "http://f"
        5 stW1 0 =
      (0, ⟨stW1.fs, ⟨stW1.meta.threads, some 5, stW1.meta.total_threads,
        stW1.meta.completed_threads⟩, stW1.fetchLog⟩) ∧
    (downloadPages noStop fetchW1 "7" "T7" [(1, "http://f/t7")]
        ⟨[("thread_7_T7__page1.html", "X")], [], 0, none⟩ 0).1.fs =
      [("thread_7_T7__page1.html", "X")] := by
  have h := C1_backup_idempotent fetchW1 (fun _ => []) rawLinksW1 (fun _ _ => []) 1
    "http://f" 5 0 stW1 (by decide) (by decide) (by decide)
  refine ⟨h.1, ?_⟩
  exact (h.2 "7" "T7" [(1, "http://f/t7")]
    ⟨[("thread_7_T7__page1.html", "X")], [], 0, none⟩ 0 (by decide)).1

/-! ### Claim C4: pagination stop — helper lemmas -/

/-- The sizes along the loop never repeat between neighbours (so the
stop heuristic does not fire early). -/
def sizeChainOk : Option Nat → List Nat → Prop
  | _, [] => True
  | prev, s :: rest => prev ≠ some s ∧ sizeChainOk (some s) rest

theorem pageFileName_inj (tid stitle : String) :
    Function.Injective (pageFileName tid stitle) := by
  intro a b h
  apply natToDec_injective
  have hd := congrArg String.data h
  simp only [pageFileName, String.data_append] at hd
  have h1 := List.append_cancel_right hd
  have h2 := List.append_cancel_left h1
  exact String.ext h2

theorem enumFrom1_append {α : Type} (l1 l2 : List α) :
    ∀ n, enumFrom1 n (l1 ++ l2) = enumFrom1 n l1 ++ enumFrom1 (n + l1.length) l2 := by
  induction l1 with
  | nil => intro n; simp [enumFrom1]
  | cons a l1 ih =>
    intro n
    simp only [List.cons_append, enumFrom1, List.length_cons, List.append_eq]
    rw [ih (n + 1)]
    rw [show n + 1 + l1.length = n + (l1.length + 1) from by omega]

theorem lookup_dictInsert_self (k : String) (v : ThreadRecord)
    (l : List (String × ThreadRecord)) : (dictInsert k v l).lookup k = some v := by
  induction l with
  | nil => simp [dictInsert, lookup_cons_eval]
  | cons p rest ih =>
    rw [dictInsert]
    by_cases hp : p.1 = k
    · rw [if_pos hp, lookup_cons_eval]
      simp
    · rw [if_neg hp, lookup_cons_eval]
      have hb : (k == p.1) = false := beq_eq_false_iff_ne.mpr (fun he => hp he.symm)
      rw [hb]
      simpa using ih

theorem lookup_writes (tid stitle : String) :
    ∀ (ps : List (String × String)) (j i : Nat), i < ps.length →
      ((enumFrom1 j ps).map
        (fun q => (pageFileName tid stitle q.1, q.2.2))).lookup
          (pageFileName tid stitle (j + i)) = some ((ps.getD i ("", "")).2) := by
  intro ps
  induction ps with
  | nil => intro j i hi; simp at hi
  | cons p ps ih =>
    intro j i hi
    cases i with
    | zero =>
      simp [enumFrom1, lookup_cons_eval]
    | succ i' =>
      have hne : (pageFileName tid stitle (j + (i' + 1)) ==
          pageFileName tid stitle j) = false := by
        rw [beq_eq_false_iff_ne]
        intro he
        have := pageFileName_inj tid stitle he
        omega
      simp only [enumFrom1, List.map_cons, lookup_cons_eval, hne, Bool.false_eq_true,
        if_false, List.getD_cons_succ]
      have hrec := ih (j + 1) i' (by simpa using hi)
      rw [show j + 1 + i' = j + (i' + 1) from by omega] at hrec
      exact hrec

theorem lookup_writes_none (tid stitle : String) :
    ∀ (ps : List (String × String)) (j n : Nat), (∀ i, i < ps.length → j + i ≠ n) →
      ((enumFrom1 j ps).map
        (fun q => (pageFileName tid stitle q.1, q.2.2))).lookup
          (pageFileName tid stitle n) = none := by
  intro ps
  induction ps with
  | nil => intro j n _; simp [enumFrom1]
  | cons p ps ih =>
    intro j n h
    have hne : (pageFileName tid stitle n == pageFileName tid stitle j) = false := by
      rw [beq_eq_false_iff_ne]
      intro he
      have := pageFileName_inj tid stitle he
      exact h 0 (by simp) (by omega)
    simp only [enumFrom1, List.map_cons, lookup_cons_eval, hne, Bool.false_eq_true,
      if_false]
    exact ih (j + 1) n (fun i hi => by
      have := h (i + 1) (by simpa using hi)
      omega)

theorem getLastD_map_some {ps : List (String × String)} {pl : String × String}
    (h : ps.getLast? = some pl) :
    (ps.map (fun p => some p.2.utf8ByteSize)).getLastD none =
      some pl.2.utf8ByteSize := by
  rw [List.getLastD_eq_getLast?, List.getLast?_map, h]
  rfl

/-- Processing a block of fresh, fetchable pages whose consecutive sizes
differ writes one file per page, logs one fetch per page, and leaves the
loop positioned on the remaining pages. -/
theorem downloadPages_writes (fetch : String → Option String) (tid stitle : String) :
    ∀ (ps : List (String × String)) (j : Nat) (tail : List (Nat × String))
      (acc : PageLoop) (tick : Nat),
      (∀ p ∈ ps, fetch p.1 = some p.2) →
      sizeChainOk acc.prevSize (ps.map (fun p => p.2.utf8ByteSize)) →
      (∀ i, i < ps.length → acc.fs.lookup (pageFileName tid stitle (j + 1 + i)) = none) →
      downloadPages noStop fetch tid stitle
          (enumFrom1 (j + 1) (ps.map Prod.fst) ++ tail) acc tick =
        downloadPages noStop fetch tid stitle tail
          ⟨acc.fs ++ (enumFrom1 (j + 1) ps).map
              (fun q => (pageFileName tid stitle q.1, q.2.2)),
            acc.fetchLog ++ ps.map Prod.fst,
            acc.downloaded + ps.length,
            (ps.map (fun p => some p.2.utf8ByteSize)).getLastD acc.prevSize⟩
          (tick + ps.length) := by
  intro ps
  induction ps with
  | nil =>
    intro j tail acc tick _ _ _
    obtain ⟨fs, lg, d, pr⟩ := acc
    simp [enumFrom1]
  | cons p ps ih =>
    intro j tail acc tick h1 h2 h3
    obtain ⟨u, c⟩ := p
    have hfetch : fetch u = some c := h1 (u, c) (List.mem_cons_self _ _)
    have hlook : acc.fs.lookup (pageFileName tid stitle (j + 1)) = none := by
      have := h3 0 (by simp)
      simpa using this
    have hne : ¬ (acc.prevSize = some c.utf8ByteSize) := by
      simp only [List.map_cons, sizeChainOk] at h2
      exact h2.1
    have hstep : downloadPages noStop fetch tid stitle
        (enumFrom1 (j + 1) (((u, c) :: ps).map Prod.fst) ++ tail) acc tick =
      downloadPages noStop fetch tid stitle
        (enumFrom1 (j + 1 + 1) (ps.map Prod.fst) ++ tail)
        ⟨acc.fs ++ [(pageFileName tid stitle (j + 1), c)],
          acc.fetchLog ++ [u], acc.downloaded + 1, some c.utf8ByteSize⟩
        (tick + 1) := by
      simp only [List.map_cons, enumFrom1, List.cons_append]
      rw [downloadPages]
      simp [noStop, hlook, hfetch, hne]
    rw [hstep]
    have hrec := ih (j + 1) tail
      ⟨acc.fs ++ [(pageFileName tid stitle (j + 1), c)],
        acc.fetchLog ++ [u], acc.downloaded + 1, some c.utf8ByteSize⟩
      (tick + 1)
      (fun q hq => h1 q (List.mem_cons_of_mem _ hq))
      (by
        simp only [List.map_cons, sizeChainOk] at h2
        exact h2.2)
      (by
        intro i hi
        show ((acc.fs ++ [(pageFileName tid stitle (j + 1), c)]).lookup
          (pageFileName tid stitle (j + 1 + 1 + i))) = none
        rw [lookup_append_single]
        have hfs : acc.fs.lookup (pageFileName tid stitle (j + 1 + 1 + i)) = none := by
          have := h3 (i + 1) (by simpa using hi)
          rw [show j + 1 + (i + 1) = j + 1 + 1 + i from by omega] at this
          exact this
        rw [hfs]
        simp only [Option.isSome_none, Bool.false_eq_true, if_false]
        rw [if_neg]
        intro he
        have := pageFileName_inj tid stitle he
        omega)
    rw [hrec]
    have hacc : (⟨(acc.fs ++ [(pageFileName tid stitle (j + 1), c)]) ++
          (enumFrom1 (j + 1 + 1) ps).map
            (fun q => (pageFileName tid stitle q.1, q.2.2)),
        (acc.fetchLog ++ [u]) ++ ps.map Prod.fst,
        acc.downloaded + 1 + ps.length,
        (ps.map (fun p => some p.2.utf8ByteSize)).getLastD (some c.utf8ByteSize)⟩ :
          PageLoop) =
      ⟨acc.fs ++ (enumFrom1 (j + 1) ((u, c) :: ps)).map
          (fun q => (pageFileName tid stitle q.1, q.2.2)),
        acc.fetchLog ++ ((u, c) :: ps).map Prod.fst,
        acc.downloaded + (ps.length + 1),
        (((u, c) :: ps).map (fun p => some p.2.utf8ByteSize)).getLastD acc.prevSize⟩ := by
      simp only [enumFrom1, List.map_cons, List.getLastD_cons, List.append_assoc,
        List.cons_append, List.nil_append, PageLoop.mk.injEq]
      refine ⟨trivial, trivial, by omega, trivial⟩
    rw [hacc, show tick + 1 + ps.length = tick + (ps.length + 1) from by omega]
    simp only [List.length_cons]

/-- C4: for a content unit whose page N+1 returns content byte-identical
to page N (hence of equal byte length) while earlier consecutive pages
differ in byte length (otherwise the same heuristic stops even earlier),
crawling into a fresh output directory persists exactly pages 1..N, does
not persist page N+1, and records `pages = N` in the unit's ThreadRecord. -/
theorem C4_pagination_stop (fetch : String → Option String)
    (getPages : String → String → List String) (t : ContentUnit) (now tick : Nat)
    (st : CrawlState) (html : String) (ps : List (String × String))
    (lastp pl : String × String) (restUrls : List String)
    (hfirst : fetch t.url = some html)
    (hpages : getPages t.url html = ps.map Prod.fst ++ lastp.1 :: restUrls)
    (hfetch : ∀ p ∈ ps, fetch p.1 = some p.2)
    (hfetchlast : fetch lastp.1 = some lastp.2)
    (hchain : sizeChainOk none (ps.map (fun p => p.2.utf8ByteSize)))
    (hlast : ps.getLast? = some pl)
    (hsame : lastp.2 = pl.2)
    (hfresh : ∀ n, 1 ≤ n → n ≤ ps.length + 1 →
        st.fs.lookup (pageFileName t.id (safeFilenameStr t.title) n) = none) :
    (downloadThread noStop fetch getPages t now st tick).1 = true ∧
    (∀ i, i < ps.length →
      (downloadThread noStop fetch getPages t now st tick).2.1.fs.lookup
        (pageFileName t.id (safeFilenameStr t.title) (i + 1)) =
          some ((ps.getD i ("", "")).2)) ∧
    (downloadThread noStop fetch getPages t now st tick).2.1.fs.lookup
      (pageFileName t.id (safeFilenameStr t.title) (ps.length + 1)) = none ∧
    (downloadThread noStop fetch getPages t now st tick).2.1.meta.threads.lookup
      t.id = some ⟨t.title, t.url, ps.length, now⟩ := by
  have e1 : enumFrom1 1 (getPages t.url html) =
      enumFrom1 (0 + 1) (ps.map Prod.fst) ++
        ((1 + ps.length, lastp.1) :: enumFrom1 (1 + ps.length + 1) restUrls) := by
    rw [hpages, enumFrom1_append]
    simp [enumFrom1, List.length_map]
  have e2 := downloadPages_writes fetch t.id (safeFilenameStr t.title) ps 0
    ((1 + ps.length, lastp.1) :: enumFrom1 (1 + ps.length + 1) restUrls)
    ⟨st.fs, st.fetchLog ++ [t.url], 0, none⟩ (tick + 1) hfetch hchain
    (by
      intro i hi
      show st.fs.lookup (pageFileName t.id (safeFilenameStr t.title) (0 + 1 + i)) = none
      rw [show 0 + 1 + i = i + 1 from by omega]
      exact hfresh (i + 1) (by omega) (by omega))
  have hprev : ((ps.map (fun p => some p.2.utf8ByteSize)).getLastD
      (⟨st.fs, st.fetchLog ++ [t.url], 0, none⟩ : PageLoop).prevSize) =
        some pl.2.utf8ByteSize := by
    show (ps.map (fun p => some p.2.utf8ByteSize)).getLastD none =
      some pl.2.utf8ByteSize
    exact getLastD_map_some hlast
  have hlookbreak : ((st.fs ++ (enumFrom1 (0 + 1) ps).map
      (fun q => (pageFileName t.id (safeFilenameStr t.title) q.1, q.2.2))).lookup
        (pageFileName t.id (safeFilenameStr t.title) (1 + ps.length))) = none := by
    rw [lookup_append]
    rw [show (1 : Nat) + ps.length = ps.length + 1 from by omega]
    rw [hfresh (ps.length + 1) (by omega) (by omega)]
    exact lookup_writes_none t.id (safeFilenameStr t.title) ps (0 + 1) (ps.length + 1)
      (fun i hi => by omega)
  have e3 : downloadPages noStop fetch t.id (safeFilenameStr t.title)
      ((1 + ps.length, lastp.1) :: enumFrom1 (1 + ps.length + 1) restUrls)
      ⟨st.fs ++ (enumFrom1 (0 + 1) ps).map
          (fun q => (pageFileName t.id (safeFilenameStr t.title) q.1, q.2.2)),
        (st.fetchLog ++ [t.url]) ++ ps.map Prod.fst, 0 + ps.length,
        (ps.map (fun p => some p.2.utf8ByteSize)).getLastD
          (⟨st.fs, st.fetchLog ++ [t.url], 0, none⟩ : PageLoop).prevSize⟩
      (tick + 1 + ps.length) =
      (⟨st.fs ++ (enumFrom1 (0 + 1) ps).map
          (fun q => (pageFileName t.id (safeFilenameStr t.title) q.1, q.2.2)),
        ((st.fetchLog ++ [t.url]) ++ ps.map Prod.fst) ++ [lastp.1], 0 + ps.length,
        some pl.2.utf8ByteSize⟩,
       tick + 1 + ps.length) := by
    rw [hprev, downloadPages]
    simp only [noStop, Bool.false_eq_true, if_false]
    rw [hlookbreak]
    simp only
    rw [hfetchlast]
    simp only
    rw [if_pos (by rw [hsame])]
  have hdt : downloadThread noStop fetch getPages t now st tick =
      (true,
        ⟨st.fs ++ (enumFrom1 (0 + 1) ps).map
            (fun q => (pageFileName t.id (safeFilenameStr t.title) q.1, q.2.2)),
          ⟨dictInsert t.id ⟨t.title, t.url, 0 + ps.length, now⟩ st.meta.threads,
            st.meta.last_backup, st.meta.total_threads, st.meta.completed_threads⟩,
          ((st.fetchLog ++ [t.url]) ++ ps.map Prod.fst) ++ [lastp.1]⟩,
        tick + 1 + ps.length) := by
    simp only [downloadThread, noStop, Bool.false_eq_true, if_false]
    rw [hfirst]
    simp only
    rw [e1, e2, e3]
  refine ⟨by rw [hdt], ?_, ?_, ?_⟩
  · intro i hi
    rw [hdt]
    simp only
    rw [lookup_append, hfresh (i + 1) (by omega) (by omega)]
    have := lookup_writes t.id (safeFilenameStr t.title) ps (0 + 1) i hi
    rw [show 0 + 1 + i = i + 1 from by omega] at this
    rw [this]
  · rw [hdt]
    simp only
    rw [show ps.length + 1 = 1 + ps.length from by omega]
    exact hlookbreak
  · rw [hdt]
    simp only
    rw [show (0 : Nat) + ps.length = ps.length from by omega]
    exact lookup_dictInsert_self t.id ⟨t.title, t.url, ps.length, now⟩ st.meta.threads

/-- Concrete fetch oracle for the C4 witness: three pages, the third
byte-identical to the second. -/
def fetchC4 : String → Option String := fun u =>
  if u = "tu" then some "H"
  else if u = "u1" then some "a"
  else if u = "u2" then some "bb"
  else if u = "u3" then some "bb"
  else none

/-- Concrete sub-page discovery for the C4 witness. -/
def getPagesC4 : String → String → List String := fun u _ =>
  if u = "tu" then ["u1", "u2", "u3"] else []

theorem C4_witness :
    (downloadThread noStop fetchC4 getPagesC4 ⟨"5", "tu", "T"⟩ 9
        ⟨[], ⟨[], none, 0, 0⟩, []⟩ 0).1 = true ∧
    (downloadThread noStop fetchC4 getPagesC4 ⟨"5", "tu", "T"⟩ 9
        ⟨[], ⟨[], none, 0, 0⟩, []⟩ 0).2.1.fs.lookup
      (pageFileName "5" (safeFilenameStr "T") 3) = none ∧
    (downloadThread noStop fetchC4 getPagesC4 ⟨"5", "tu", "T"⟩ 9
        ⟨[], ⟨[], none, 0, 0⟩, []⟩ 0).2.1.meta.threads.lookup "5" =
      some ⟨"T", "tu", 2, 9⟩ := by
  have h := C4_pagination_stop fetchC4 getPagesC4 ⟨"5", "tu", "T"⟩ 9 0
    ⟨[], ⟨[], none, 0, 0⟩, []⟩ "H" [("u1", "a"), ("u2", "bb")] ("u3", "bb")
    ("u2", "bb") [] (by decide) (by decide) (by decide) (by decide)
    ⟨by decide, by decide, trivial⟩ (by decide) rfl (fun n _ _ => rfl)
  exact ⟨h.1, h.2.2.1, h.2.2.2⟩

/-! ### Claim C6: cancellation behaviour -/

/-- Cancellation flag set from clock 2 onwards (mid-run). -/
def stopC6 : Nat → Bool := fun t => decide (2 ≤ t)

/-- Fetch oracle for the C6 counterexample: a two-page unit. -/
def fetchC6 : String → Option String := fun u =>
  if u = "u" then some "H" else if u = "u2" then some "HH" else none

/-- Sub-page discovery for the C6 counterexample. -/
def getPagesC6 : String → String → List String := fun u _ =>
  if u = "u" then ["u", "u2"] else []

/-- Counterexample to C6 as stated: the flag is raised after page 1 of a
two-page unit; the loop breaks, yet `download_thread` still records a
ThreadRecord (`pages = 1`) for the interrupted unit and reports success —
page 2 was never fetched nor persisted, so metadata does not reflect only
units that reached Done. -/
theorem C6_counterexample :
    (downloadThread stopC6 fetchC6 getPagesC6 ⟨"9", "u", "T"⟩ 7
        ⟨[], ⟨[], none, 0, 0⟩, []⟩ 0).2.1.meta.threads.lookup "9" =
      some ⟨"T", "u", 1, 7⟩ ∧
    (downloadThread stopC6 fetchC6 getPagesC6 ⟨"9", "u", "T"⟩ 7
        ⟨[], ⟨[], none, 0, 0⟩, []⟩ 0).1 = true ∧
    "u2" ∉ (downloadThread stopC6 fetchC6 getPagesC6 ⟨"9", "u", "T"⟩ 7
        ⟨[], ⟨[], none, 0, 0⟩, []⟩ 0).2.1.fetchLog ∧
    (downloadThread stopC6 fetchC6 getPagesC6 ⟨"9", "u", "T"⟩ 7
        ⟨[], ⟨[], none, 0, 0⟩, []⟩ 0).2.1.fs.lookup
      (pageFileName "9" (safeFilenameStr "T") 2) = none := by
  refine ⟨?_, ?_, ?_, ?_⟩ <;> decide

/-- C6 (amended): once the cancellation flag is set, no new unit starts (a
unit entered with the flag set performs no work, records nothing, and
returns failure), the page loop of an in-flight unit stops at its next
checkpoint, and the result loop accepts no further results — but a unit
whose initial fetch succeeded always writes a ThreadRecord with the pages
persisted so far and counts as successful, so persisted metadata may
include records for units that were interrupted before completion. -/
theorem C6_cancellation (stop : Nat → Bool) (fetch : String → Option String)
    (getPages : String → String → List String) (t : ContentUnit) (now : Nat)
    (st : CrawlState) (tick : Nat) :
    (stop tick = true →
      downloadThread stop fetch getPages t now st tick = (false, st, tick)) ∧
    (∀ (ts : List ContentUnit) (successful : Nat) (st2 : CrawlState) (tk : Nat),
      stop tk = true →
      runLoop stop fetch getPages now (t :: ts) successful st2 tk =
        (successful, st2, tk)) ∧
    (∀ (tid stitle : String) (p : Nat × String) (pages : List (Nat × String))
        (acc : PageLoop) (tk : Nat), stop tk = true →
      downloadPages stop fetch tid stitle (p :: pages) acc tk = (acc, tk)) ∧
    (∀ html, stop tick = false → fetch t.url = some html →
      (downloadThread stop fetch getPages t now st tick).1 = true ∧
      (downloadThread stop fetch getPages t now st tick).2.1.meta.threads.lookup
          t.id =
        some ⟨t.title, t.url,
          (downloadPages stop fetch t.id (safeFilenameStr t.title)
            (enumFrom1 1 (getPages t.url html))
            ⟨st.fs, st.fetchLog ++ [t.url], 0, none⟩ (tick + 1)).1.downloaded,
          now⟩) := by
  refine ⟨?_, ?_, ?_, ?_⟩
  · intro h
    simp [downloadThread, h]
  · intro ts successful st2 tk h
    simp [runLoop, h]
  · intro tid stitle p pages acc tk h
    obtain ⟨n, u⟩ := p
    simp [downloadPages, h]
  · intro html hs hf
    constructor
    · simp only [downloadThread, hs, Bool.false_eq_true, if_false]
      rw [hf]
    · simp only [downloadThread, hs, Bool.false_eq_true, if_false]
      rw [hf]
      simp only
      exact lookup_dictInsert_self t.id _ st.meta.threads

theorem C6_witness :
    downloadThread stopC6 fetchC6 getPagesC6 ⟨"8", "v", "V"⟩ 3
      ⟨[], ⟨[], none, 0, 0⟩, []⟩ 2 = (false, ⟨[], ⟨[], none, 0, 0⟩, []⟩, 2) ∧
    (downloadThread stopC6 fetchC6 getPagesC6 ⟨"9", "u", "T"⟩ 7
        ⟨[], ⟨[], none, 0, 0⟩, []⟩ 0).2.1.meta.threads.lookup "9" =
      some ⟨"T", "u",
        (downloadPages stopC6 fetchC6 "9" (safeFilenameStr "T")
          (enumFrom1 1 (getPagesC6 "u" "H"))
          ⟨[], [] ++ ["u"], 0, none⟩ 1).1.downloaded, 7⟩ := by
  constructor
  · exact (C6_cancellation stopC6 fetchC6 getPagesC6 ⟨"8", "v", "V"⟩ 3
      ⟨[], ⟨[], none, 0, 0⟩, []⟩ 2).1 (by decide)
  · exact ((C6_cancellation stopC6 fetchC6 getPagesC6 ⟨"9", "u", "T"⟩ 7
      ⟨[], ⟨[], none, 0, 0⟩, []⟩ 0).2.2.2 "H" (by decide) (by decide)).2

/-! ### The site mirror crawler (`MirrorCrawler`) -/

/-- `str.rstrip("/")` (the constructor's `base_url.rstrip("/")`). -/
def rstripSlashes (s : String) : String := ⟨rstripSlashList s.data⟩

/-- `urlparse(url).netloc` for the URL shapes the crawler handles: the
segment after `://` up to the next `/`, `?` or `#`; empty when no scheme
separator is present. -/
def urlDomain (url : String) : String :=
  if hasSubList "://".data url.data then
    ⟨(dropThroughSub "://".data url.data).takeWhile
      (fun c => c != '/' && c != '?' && c != '#')⟩
  else ""

/-- Proof-sharing form of claim C10's statement, used by the mirror
development. -/
theorem normalize_idem (u : String) :
    MirrorCrawler.normalize (MirrorCrawler.normalize u) = MirrorCrawler.normalize u := by
  show (⟨rstripSlashList (dropFragList (rstripSlashList (dropFragList u.data)))⟩ :
      String) = ⟨rstripSlashList (dropFragList u.data)⟩
  have hmem : ∀ c ∈ rstripSlashList (dropFragList u.data), c ≠ '#' := fun c hc =>
    mem_dropFragList (mem_rstripSlashList hc)
  rw [dropFragList_eq_self hmem, rstripSlashList_idem]

/-- Shared crawl state: the visited set, the work queue (front = next
dequeue), the saved pages in save order, and the log of every URL a worker
enqueued. -/
structure MirrorState where
  visited : List String
  queue : List String
  saved : List String
  enqLog : List String
deriving DecidableEq

/-- The same-domain absolute targets `_worker` enqueues from page `u`:
`links u` abstracts the `urljoin`-absolutised raw link targets of the
fetched, parsed page; each is `_normalize`d and kept only when its netloc
equals the crawler's `base_domain`, as in the source. -/
def nextUrls (bd : String) (links : String → List String) (u : String) : List String :=
  ((links u).map (fun l => MirrorCrawler.normalize l)).filter
    (fun a => urlDomain a == bd)

/-- One dequeue-process cycle of `MirrorCrawler._worker`, serialised: the
URL is normalized, the visited check-and-insert happens atomically at
dequeue time, the response is assumed 200 HTML, the page is saved, and
every same-domain target is enqueued (and logged). -/
def mirrorStep (bd : String) (links : String → List String) (st : MirrorState) :
    MirrorState :=
  match st.queue with
  | [] => st
  | u :: rest =>
    let n := MirrorCrawler.normalize u
    if n ∈ st.visited then ⟨st.visited, rest, st.saved, st.enqLog⟩
    else
      ⟨n :: st.visited, rest ++ nextUrls bd links n, st.saved ++ [n],
        st.enqLog ++ nextUrls bd links n⟩

/-- Run the crawl for at most `fuel` dequeue cycles or until the queue is
drained. -/
def mirrorRun (bd : String) (links : String → List String) :
    Nat → MirrorState → MirrorState
  | 0, st => st
  | fuel + 1, st =>
    if st.queue.isEmpty then st
    else mirrorRun bd links fuel (mirrorStep bd links st)

/-- `MirrorCrawler.run`: seed the queue with `base_url.rstrip("/")`, take
`base_domain = urlparse(base_url).netloc`, and crawl. -/
def mirrorCrawl (base_url : String) (links : String → List String) (fuel : Nat) :
    MirrorState :=
  mirrorRun (urlDomain base_url) links fuel ⟨[], [rstripSlashes base_url], [], []⟩

/-- One hop of the same-domain link graph. -/
def NextUrl (bd : String) (links : String → List String) (a b : String) : Prop :=
  b ∈ nextUrls bd links a

/-- Reachability from the normalized seed through same-domain links. -/
def Reaches (base_url : String) (links : String → List String) (v : String) : Prop :=
  Relation.ReflTransGen (NextUrl (urlDomain base_url) links)
    (MirrorCrawler.normalize (rstripSlashes base_url)) v

/-- The crawl invariant. -/
structure MirrorInv (base_url : String) (links : String → List String)
    (st : MirrorState) : Prop where
  savedNodup : st.saved.Nodup
  savedIff : ∀ u, u ∈ st.saved ↔ u ∈ st.visited
  visitedNorm : ∀ u ∈ st.visited, MirrorCrawler.normalize u = u
  visitedReach : ∀ u ∈ st.visited, Reaches base_url links u
  queueReach : ∀ q ∈ st.queue, Reaches base_url links (MirrorCrawler.normalize q)
  closure : ∀ u ∈ st.visited, ∀ v, NextUrl (urlDomain base_url) links u v →
      v ∈ st.visited ∨ ∃ q ∈ st.queue, MirrorCrawler.normalize q = v
  seedOk : MirrorCrawler.normalize (rstripSlashes base_url) ∈ st.visited ∨
      ∃ q ∈ st.queue, MirrorCrawler.normalize q =
        MirrorCrawler.normalize (rstripSlashes base_url)
  enqDomain : ∀ e ∈ st.enqLog, urlDomain e = urlDomain base_url

theorem mem_nextUrls_norm {bd : String} {links : String → List String}
    {u v : String} (h : v ∈ nextUrls bd links u) :
    MirrorCrawler.normalize v = v := by
  simp only [nextUrls, List.mem_filter, List.mem_map] at h
  obtain ⟨⟨l, _, rfl⟩, _⟩ := h
  exact normalize_idem l

theorem mem_nextUrls_domain {bd : String} {links : String → List String}
    {u v : String} (h : v ∈ nextUrls bd links u) : urlDomain v = bd := by
  simp only [nextUrls, List.mem_filter] at h
  exact beq_iff_eq.mp h.2

theorem mirrorInv_init (base_url : String) (links : String → List String) :
    MirrorInv base_url links ⟨[], [rstripSlashes base_url], [], []⟩ where
  savedNodup := List.nodup_nil
  savedIff := fun u => by simp
  visitedNorm := fun u hu => absurd hu (List.not_mem_nil u)
  visitedReach := fun u hu => absurd hu (List.not_mem_nil u)
  queueReach := fun q hq => by
    simp only [List.mem_singleton] at hq
    subst hq
    exact Relation.ReflTransGen.refl
  closure := fun u hu => absurd hu (List.not_mem_nil u)
  seedOk := Or.inr ⟨rstripSlashes base_url, by simp, rfl⟩
  enqDomain := fun e he => absurd he (List.not_mem_nil e)

theorem mirrorStep_inv {base_url : String} {links : String → List String}
    {st : MirrorState} (h : MirrorInv base_url links st) :
    MirrorInv base_url links (mirrorStep (urlDomain base_url) links st) := by
  cases hq : st.queue with
  | nil =>
    have hstep : mirrorStep (urlDomain base_url) links st = st := by
      simp [mirrorStep, hq]
    rw [hstep]
    exact h
  | cons u rest =>
    by_cases hv : MirrorCrawler.normalize u ∈ st.visited
    · have hstep : mirrorStep (urlDomain base_url) links st =
          ⟨st.visited, rest, st.saved, st.enqLog⟩ := by
        simp [mirrorStep, hq, hv]
      rw [hstep]
      refine ⟨h.savedNodup, h.savedIff, h.visitedNorm, h.visitedReach, ?_, ?_, ?_,
        h.enqDomain⟩
      · intro q hqm
        exact h.queueReach q (by rw [hq]; exact List.mem_cons_of_mem _ hqm)
      · intro w hw v hnv
        rcases h.closure w hw v hnv with hl | ⟨q, hqm, hnq⟩
        · exact Or.inl hl
        · rw [hq] at hqm
          rcases List.mem_cons.mp hqm with rfl | hqr
          · exact Or.inl (hnq ▸ hv)
          · exact Or.inr ⟨q, hqr, hnq⟩
      · rcases h.seedOk with hl | ⟨q, hqm, hnq⟩
        · exact Or.inl hl
        · rw [hq] at hqm
          rcases List.mem_cons.mp hqm with rfl | hqr
          · exact Or.inl (hnq ▸ hv)
          · exact Or.inr ⟨q, hqr, hnq⟩
    · have hstep : mirrorStep (urlDomain base_url) links st =
          ⟨MirrorCrawler.normalize u :: st.visited,
            rest ++ nextUrls (urlDomain base_url) links (MirrorCrawler.normalize u),
            st.saved ++ [MirrorCrawler.normalize u],
            st.enqLog ++ nextUrls (urlDomain base_url) links
              (MirrorCrawler.normalize u)⟩ := by
        simp [mirrorStep, hq, hv]
      rw [hstep]
      have hnotsaved : MirrorCrawler.normalize u ∉ st.saved := fun hs =>
        hv ((h.savedIff _).mp hs)
      have hreachn : Reaches base_url links (MirrorCrawler.normalize u) :=
        h.queueReach u (by rw [hq]; exact List.mem_cons_self _ _)
      refine ⟨?_, ?_, ?_, ?_, ?_, ?_, ?_, ?_⟩
      · rw [List.nodup_append]
        refine ⟨h.savedNodup, List.nodup_singleton _, ?_⟩
        intro a ha hb
        simp only [List.mem_singleton] at hb
        subst hb
        exact hnotsaved ha
      · intro w
        simp only [List.mem_append, List.mem_singleton, List.mem_cons]
        rw [h.savedIff w]
        tauto
      · intro w hw
        rcases List.mem_cons.mp hw with rfl | hw'
        · exact normalize_idem u
        · exact h.visitedNorm w hw'
      · intro w hw
        rcases List.mem_cons.mp hw with rfl | hw'
        · exact hreachn
        · exact h.visitedReach w hw'
      · intro q hqm
        rcases List.mem_append.mp hqm with hqr | hqo
        · exact h.queueReach q (by rw [hq]; exact List.mem_cons_of_mem _ hqr)
        · rw [mem_nextUrls_norm hqo]
          exact hreachn.tail hqo
      · intro w hw v hnv
        rcases List.mem_cons.mp hw with rfl | hw'
        · exact Or.inr ⟨v, List.mem_append.mpr (Or.inr hnv), mem_nextUrls_norm hnv⟩
        · rcases h.closure w hw' v hnv with hl | ⟨q, hqm, hnq⟩
          · exact Or.inl (List.mem_cons_of_mem _ hl)
          · rw [hq] at hqm
            rcases List.mem_cons.mp hqm with rfl | hqr
            · exact Or.inl (by rw [← hnq]; exact List.mem_cons_self _ _)
            · exact Or.inr ⟨q, List.mem_append.mpr (Or.inl hqr), hnq⟩
      · rcases h.seedOk with hl | ⟨q, hqm, hnq⟩
        · exact Or.inl (List.mem_cons_of_mem _ hl)
        · rw [hq] at hqm
          rcases List.mem_cons.mp hqm with rfl | hqr
          · exact Or.inl (by rw [← hnq]; exact List.mem_cons_self _ _)
          · exact Or.inr ⟨q, List.mem_append.mpr (Or.inl hqr), hnq⟩
      · intro e he
        rcases List.mem_append.mp he with hel | heo
        · exact h.enqDomain e hel
        · exact mem_nextUrls_domain heo

theorem mirrorRun_inv (base_url : String) (links : String → List String) :
    ∀ (fuel : Nat) (st : MirrorState), MirrorInv base_url links st →
      MirrorInv base_url links (mirrorRun (urlDomain base_url) links fuel st) := by
  intro fuel
  induction fuel with
  | zero => intro st h; exact h
  | succ fuel ih =>
    intro st h
    rw [mirrorRun]
    by_cases hq : (st.queue.isEmpty : Prop)
    · rw [if_pos hq]
      exact h
    · rw [if_neg hq]
      exact ih _ (mirrorStep_inv h)

/-! ### Claim C5: mirror termination and domain confinement -/

/-- C5: in a serialised `MirrorCrawler` run (every dequeue processes one
URL with the visited check-and-insert atomic) over a link graph whose
same-domain pages all respond 200 HTML, no page is ever saved twice; a URL
whose domain differs from the seed's domain is never enqueued by a worker;
and if the run drains its queue, the saved set is exactly the set of
normalized URLs reachable from the seed through same-domain links — each
fetched and saved exactly once. -/
theorem C5_mirror_confinement (base_url : String) (links : String → List String)
    (fuel : Nat) :
    (mirrorCrawl base_url links fuel).saved.Nodup ∧
    (∀ e ∈ (mirrorCrawl base_url links fuel).enqLog,
        urlDomain e = urlDomain base_url) ∧
    ((mirrorCrawl base_url links fuel).queue = [] →
      ∀ v, v ∈ (mirrorCrawl base_url links fuel).saved ↔
        Reaches base_url links v) := by
  have hinv : MirrorInv base_url links (mirrorCrawl base_url links fuel) :=
    mirrorRun_inv base_url links fuel _ (mirrorInv_init base_url links)
  refine ⟨hinv.savedNodup, hinv.enqDomain, ?_⟩
  intro hempty v
  rw [hinv.savedIff v]
  constructor
  · intro hv
    exact hinv.visitedReach v hv
  · intro hr
    induction hr with
    | refl =>
      rcases hinv.seedOk with hl | ⟨q, hqm, _⟩
      · exact hl
      · rw [hempty] at hqm
        exact absurd hqm (List.not_mem_nil q)
    | tail hrt hstep ih =>
      rcases hinv.closure _ ih _ hstep with hl | ⟨q, hqm, _⟩
      · exact hl
      · rw [hempty] at hqm
        exact absurd hqm (List.not_mem_nil q)

/-- Concrete link graph for the C5 witness: the seed page links to one
internal page and one external page. -/
def linksW5 : String → List String := fun u =>
  if u = "http://s" then ["http://s/a", "http://x/out"] else []

theorem C5_witness :
    (mirrorCrawl "http://s/" linksW5 5).saved.Nodup ∧
    ("http://s/a" ∈ (mirrorCrawl "http://s/" linksW5 5).saved ↔
      Reaches "http://s/" linksW5 "http://s/a") := by
  have h := C5_mirror_confinement "http://s/" linksW5 5
  exact ⟨h.1, h.2.2 (by decide) "http://s/a"⟩

end ArcaneArchiver
